import Mathlib

/-!
# make_dataset: placement of labelled crops on a canvas

A shallow embedding of `src/make_dataset.cpp` (the body of `main`) and the
properties of its placement algorithm.

Conventions of the embedding.

* C++ `int` values are `Int`; `std::size_t` and `std::ptrdiff_t` image
  dimensions are `Nat`.  The two places where the program mixes a signed `int`
  with an unsigned operand (`size() > int`, `int / unsigned`) go through
  `toSizeT` and `toUnsigned`, which are the conversions the language applies.
* A call whose precondition is violated (an empty range handed to
  `std::uniform_int_distribution`, an index outside a vector, an image with a
  negative dimension, a division by zero) has no defined behaviour; the
  embedding returns `Fault.undefined` there.
* The two `for` loops run on the number of iterations left; the `while` loop
  runs on fuel and returns `Fault.out_of_fuel` when the fuel ends before the
  loop does.  `makeSample` never returns that fault (`makeSample_fuel`).
* The fields `placed`, `candidate_draws`, `offset_trials` and `rounds` of
  `Sample` are ghost state: the program does not keep them and no branch of the
  embedding reads them.
* The constructor of a GIL image leaves the pixels uninitialised: the content
  of the fresh buffer is the parameter `memory` of `makeSample`, and only
  `fill_pixels` makes the canvas black.
* A sample is a function of the state of the engine it finds.  `runThreads`
  runs the threads one after the other on the one engine of `main`; the other
  interleavings of the threads, and unsynchronized access itself, are outside
  the embedding.
-/

namespace MakeDataset

/-! ## Values -/

/-- The two ways a run leaves the defined behaviour of the embedding. -/
inductive Fault where
  | undefined
  | out_of_fuel
  deriving DecidableEq, Repr

/-- Pixel value of `boost::gil::rgb8_pixel_t`. -/
structure Pixel where
  r : Nat
  g : Nat
  b : Nat
  deriving DecidableEq, Repr

/-- The fill colour `rgb8_pixel_t(0, 0, 0)`. -/
def black : Pixel := ⟨0, 0, 0⟩

/-- Image buffer of `boost::gil::rgb8_image_t`: dimensions and pixel content. -/
structure Image where
  width : Nat
  height : Nat
  pixel : Nat → Nat → Pixel

/-- Box of `boost::geometry::model::box<point_xy<int>>`: `min_corner` is
`(xmin, ymin)` and `max_corner` is `(xmax, ymax)`. -/
structure Box where
  xmin : Int
  ymin : Int
  xmax : Int
  ymax : Int
  deriving DecidableEq, Repr

/-- Box/box case of `boost::geometry::disjoint`: in some dimension the maximum of one
box is strictly below the minimum of the other (boxes are closed sets, so
boxes that touch are not disjoint). -/
def disjoint (box1 box2 : Box) : Bool :=
  decide (box1.xmax < box2.xmin) || decide (box1.xmin > box2.xmax) ||
    decide (box1.ymax < box2.ymin) || decide (box1.ymin > box2.ymax)

/-- Pixel coordinates of the half-open rectangle `[xmin, xmax) x [ymin, ymax)`. -/
def Box.covers (b : Box) (x y : Int) : Prop :=
  b.xmin ≤ x ∧ x < b.xmax ∧ b.ymin ≤ y ∧ y < b.ymax

instance (b : Box) (x y : Int) : Decidable (b.covers x y) := by
  unfold Box.covers; infer_instance

/-- Conversion of an `int` to `std::size_t` (64 bits) in a mixed comparison. -/
def toSizeT (i : Int) : Nat :=
  if 0 ≤ i then i.toNat else (i + 2 ^ 64).toNat

/-- Conversion of an `int` to `unsigned` (32 bits) in mixed arithmetic. -/
def toUnsigned (i : Int) : Nat :=
  (i % 2 ^ 32).toNat

/-- Command-line options read by `main` through `variables_map`. -/
structure Config where
  output_directory : String
  image_width : Int
  image_height : Int
  /-- Elements `[0]` and `[1]` of the option `sequence_lengths`. -/
  sequence_lengths : Int × Int
  num_data : Int
  num_retries : Int

/-- An entry of `filenames`: the stem of the path and what `read_image` gives
for it (`none` when it throws). -/
structure File where
  stem : String
  content : Option Image

/-! ## Random source -/

/-- State of `std::mt19937 engine` as the distributions see it: `output n` is
the raw value behind the draw number `n`, `pos` the number of draws made. -/
structure Engine where
  output : Nat → Nat
  pos : Nat

/-- Value of `std::uniform_int_distribution<int>(a, b)(engine)`: a value of `[a, b]`, and
the engine one draw further.  Every value of `[a, b]` comes from some raw
value.  The range must not be empty. -/
def uniform_int_distribution (a b : Int) (engine : Engine) : Except Fault (Int × Engine) :=
  if a ≤ b then
    .ok (a + (engine.output engine.pos : Int) % (b - a + 1), { engine with pos := engine.pos + 1 })
  else .error .undefined

/-! ## The label pattern `.*_([0-9A-Za-z]*)_.*` -/

/-- The atom `.` of an ECMAScript regex: any character but a line terminator. -/
def dot (c : Char) : Bool :=
  c != '\n' && c != '\r'

/-- The class `[0-9A-Za-z]`. -/
def alnum (c : Char) : Bool :=
  ('0' ≤ c && c ≤ '9') || ('A' ≤ c && c ≤ 'Z') || ('a' ≤ c && c ≤ 'z')

/-- Greedy `p*` of a backtracking matcher: take one more character while `p`
allows and the rest of the pattern `k` then matches, else stop here.  `k`
receives the characters taken (in reverse) and the remaining input. -/
def star (p : Char → Bool) (k : List Char → List Char → Option α) :
    List Char → List Char → Option α
  | taken, [] => k taken []
  | taken, c :: cs =>
    if p c then
      match star p k (c :: taken) cs with
      | some r => some r
      | none => k taken (c :: cs)
    else k taken (c :: cs)

/-- A literal character of the pattern. -/
def lit (c : Char) (k : List Char → Option α) : List Char → Option α
  | [] => none
  | d :: ds => if d = c then k ds else none

/-- Result of `std::regex_match(string, match, std::regex(R"(.*_([0-9A-Za-z]*)_.*)"))`: `none` when the
whole string does not match, else `match[1].str()`. -/
def regex_match (string : String) : Option String :=
  star dot (fun _ r1 =>
    lit '_' (fun r2 =>
      star alnum (fun group r3 =>
        lit '_' (fun r4 =>
          star dot (fun _ r5 =>
            match r5 with
            | [] => some (String.mk group.reverse)
            | _ :: _ => none) [] r4) r3) [] r2) r1) [] string.data

/-! ## Pixel operations -/

/-- Effect of `boost::gil::fill_pixels(view(img), p)`: every pixel becomes `p`. -/
def fill_pixels (img : Image) (p : Pixel) : Image :=
  { img with pixel := fun _ _ => p }

/-- Effect of `boost::gil::copy_pixels(view(src), subimage_view(view(dst), dx, dy, src.width(), src.height()))`:
the block of `dst` with top-left corner `(dx, dy)` and the size of `src`
receives the pixels of `src`; the other pixels of `dst` stay. -/
def copy_pixels (src dst : Image) (dx dy : Int) : Image :=
  { dst with
    pixel := fun x y =>
      if dx ≤ (x : Int) ∧ (x : Int) < dx + src.width ∧ dy ≤ (y : Int) ∧ (y : Int) < dy + src.height then
        src.pixel ((x : Int) - dx).toNat ((y : Int) - dy).toNat
      else dst.pixel x y }

/-! ## One sample -/

/-- Variables of one iteration of the sample loop: the canvas `multi_image`,
the vector `strings` and the shared `engine`.  Ghost: `placed` records each
committed entry together with its source image; the three counters count
candidate draws, offset trials (one pair `dx`, `dy`) and acquisition rounds. -/
structure Sample where
  multi_image : Image
  strings : List (String × Box)
  engine : Engine
  placed : List (String × Box × Image)
  candidate_draws : Nat
  offset_trials : Nat
  rounds : Nat

/-- The checks of lines 74-91 on a drawn `filename`: the stem matches the
pattern, the label is not longer than `sequence_lengths[1]`, the file decodes,
and the image is not larger than the canvas.  `none` is `continue`. -/
def candidate (cfg : Config) (multi_image : Image) (filename : File) : Option (String × Image) :=
  match regex_match filename.stem with
  | none => none
  | some label =>
    if label.length > toSizeT cfg.sequence_lengths.2 then none
    else
      match filename.content with
      | none => none
      | some image =>
        if image.height > multi_image.height ∨ image.width > multi_image.width then none
        else some (label, image)

/-- The inner lambda of lines 93-109 with `m` iterations left: draw `dx` and
`dy`, build `box`, and commit it when it is disjoint from every box of
`strings`.  The flag is the value the lambda returns. -/
def placeOffsets (label : String) (image : Image) : Nat → Sample → Except Fault (Bool × Sample)
  | 0, s => .ok (false, s)
  | m + 1, s =>
    match uniform_int_distribution 0 ((s.multi_image.width : Int) - image.width) s.engine with
    | .error f => .error f
    | .ok (dx, e1) =>
      match uniform_int_distribution 0 ((s.multi_image.height : Int) - image.height) e1 with
      | .error f => .error f
      | .ok (dy, e2) =>
        let box : Box := ⟨dx, dy, dx + image.width, dy + image.height⟩
        if s.strings.all (fun string => disjoint string.2 box) then
          .ok (true,
            { s with
              multi_image := copy_pixels image s.multi_image dx dy
              strings := s.strings ++ [(label, box)]
              engine := e2
              placed := s.placed ++ [(label, box, image)]
              offset_trials := s.offset_trials + 1 })
        else
          placeOffsets label image m { s with engine := e2, offset_trials := s.offset_trials + 1 }

/-- The outer lambda of lines 70-114 with `l` iterations left: draw a file,
check it, and search an offset for it.  The flag is the value the lambda
returns: `true` after a commit, `false` when the iterations are used up. -/
def acquireLabel (cfg : Config) (filenames : List File) : Nat → Sample → Except Fault (Bool × Sample)
  | 0, s => .ok (false, s)
  | l + 1, s =>
    match uniform_int_distribution 0 ((filenames.length : Int) - 1) s.engine with
    | .error f => .error f
    | .ok (index, e1) =>
      match filenames[index.toNat]? with
      | none => .error .undefined
      | some filename =>
        let s1 : Sample := { s with engine := e1, candidate_draws := s.candidate_draws + 1 }
        match candidate cfg s1.multi_image filename with
        | none => acquireLabel cfg filenames l s1
        | some (label, image) =>
          match placeOffsets label image cfg.num_retries.toNat s1 with
          | .error f => .error f
          | .ok (true, s2) => .ok (true, s2)
          | .ok (false, s2) => acquireLabel cfg filenames l s2

/-- The loop `while (strings.size() < sequence_length)` of lines 69-117.  The flag
of the result tells whether the loop was left through `break`. -/
def whileLoop (cfg : Config) (filenames : List File) (sequence_length : Int) :
    Nat → Sample → Except Fault (Bool × Sample)
  | 0, s =>
    if s.strings.length < toSizeT sequence_length then .error .out_of_fuel else .ok (false, s)
  | fuel + 1, s =>
    if s.strings.length < toSizeT sequence_length then
      match acquireLabel cfg filenames cfg.num_retries.toNat { s with rounds := s.rounds + 1 } with
      | .error f => .error f
      | .ok (true, s1) => whileLoop cfg filenames sequence_length fuel s1
      | .ok (false, s1) => .ok (true, s1)
    else .ok (false, s)

/-- Comparator handed to `boost::sort` (lines 119-122). -/
def before (string1 string2 : String × Box) : Bool :=
  decide (string1.2.ymin < string2.2.ymin) ||
    (decide (string1.2.ymin = string2.2.ymin) && decide (string1.2.xmin < string2.2.xmin))

/-- The order `sort` sorts by, "not after", is total. -/
instance : IsTotal (String × Box) (fun a b => before b a = false) :=
  ⟨fun a b => by
    show before b a = false ∨ before a b = false
    rw [← Bool.not_eq_true, ← Bool.not_eq_true]
    unfold before
    simp only [Bool.or_eq_true, Bool.and_eq_true, decide_eq_true_eq]
    omega⟩

/-- The order `sort` sorts by is transitive. -/
instance : IsTrans (String × Box) (fun a b => before b a = false) :=
  ⟨fun a b c hab hbc => by
    have h1 : before b a = false := hab
    have h2 : before c b = false := hbc
    show before c a = false
    rw [← Bool.not_eq_true] at *
    unfold before at *
    simp only [Bool.or_eq_true, Bool.and_eq_true, decide_eq_true_eq] at *
    omega⟩

/-- The comparator never holds in both directions. -/
instance : IsAntisymm (String × Box) (fun a b => before a b = true) :=
  ⟨fun a b hab hba => by
    have h1 : before a b = true := hab
    have h2 : before b a = true := hba
    unfold before at *
    simp only [Bool.or_eq_true, Bool.and_eq_true, decide_eq_true_eq] at *
    omega⟩

/-- Result of `boost::sort(strings, before)`, as an insertion sort: an element goes in front of the
first one that is not before it.  On the entries of a sample every sorting
algorithm gives this list (`sorted_unique`). -/
def sort (strings : List (String × Box)) : List (String × Box) :=
  strings.insertionSort (fun a b => before b a = false)

/-- The fold of line 124: `acc + "_" + string.first` from `std::to_string(j)`. -/
def accumulate (strings : List (String × Box)) (j : Nat) : String :=
  strings.foldl (fun acc string => acc ++ "_" ++ string.1) (toString j)

/-- What one iteration of the sample loop leaves: the drawn `sequence_length`, whether
the `while` loop ended through `break`, the final variables (`final.strings`
in commit order), the sorted `strings`, and the `stem` and path written. -/
structure Output where
  sequence_length : Int
  broke : Bool
  final : Sample
  strings : List (String × Box)
  stem : String
  path : String

/-- The canvas of lines 64-65: the constructor of line 64 gives an
`image_width` x `image_height` buffer whose pixels are not initialised,
`memory` being what the buffer holds then; line 65 fills it with black. -/
def newCanvas (cfg : Config) (memory : Nat → Nat → Pixel) : Image :=
  fill_pixels ⟨cfg.image_width.toNat, cfg.image_height.toNat, memory⟩ black

/-- Body of the sample loop (lines 64-125) for the global index `j`; `memory` is
the content of the buffer that line 64 allocates.  An image with a negative
dimension cannot be constructed. -/
def makeSample (cfg : Config) (filenames : List File) (j : Nat) (engine : Engine)
    (memory : Nat → Nat → Pixel) :
    Except Fault Output :=
  if cfg.image_width < 0 ∨ cfg.image_height < 0 then .error .undefined
  else
    match uniform_int_distribution 1 cfg.sequence_lengths.1 engine with
    | .error f => .error f
    | .ok (sequence_length, e1) =>
      match whileLoop cfg filenames sequence_length (toSizeT sequence_length)
          ⟨newCanvas cfg memory, [], e1, [], 0, 0, 0⟩ with
      | .error f => .error f
      | .ok (broke, s) =>
        let strings := sort s.strings
        let stem := accumulate strings j
        .ok
          { sequence_length := sequence_length
            broke := broke
            final := s
            strings := strings
            stem := stem
            path := cfg.output_directory ++ "/" ++ stem ++ ".jpg" }

/-! ## The worker shards -/

/-- Values of `j` in `for (auto j = lo; j < hi; ++j)`. -/
def loopIndices (lo hi : Nat) : List Nat :=
  List.range' lo (hi - lo)

/-- Value of `num_data` of line 59, `int / unsigned` in 32-bit unsigned arithmetic. -/
def num_data (cfg_num_data : Int) (num_threads : Nat) : Except Fault Nat :=
  if num_threads = 0 then .error .undefined else .ok (toUnsigned cfg_num_data / num_threads)

/-- Indices `j` that thread `i` runs through (line 63), the products taken in
32-bit unsigned arithmetic. -/
def shard (n : Nat) (i : Nat) : List Nat :=
  loopIndices (n * i % 2 ^ 32) (n * (i + 1) % 2 ^ 32)

/-- Index ranges of the threads `0, ..., num_threads - 1` (lines 57-63). -/
def schedule (cfg_num_data : Int) (num_threads : Nat) : Except Fault (List (List Nat)) :=
  match num_data cfg_num_data num_threads with
  | .error f => .error f
  | .ok n => .ok ((List.range num_threads).map (shard n))

/-! ## Properties of the variables of a sample -/

/-- The box of a commit at offset `(dx, dy)`. -/
def boxAt (image : Image) (dx dy : Int) : Box :=
  ⟨dx, dy, dx + image.width, dy + image.height⟩

/-- A property of canvas, entries and ghost record is kept by the commit of
`image` under `label`: at every offset inside the canvas whose box is disjoint
from the entries. -/
def KeptByCommit (P : Image → List (String × Box) → List (String × Box × Image) → Prop)
    (label : String) (image : Image) : Prop :=
  ∀ (img : Image) (strings : List (String × Box)) (placed : List (String × Box × Image))
    (dx dy : Int),
    P img strings placed →
    0 ≤ dx → dx + image.width ≤ img.width → 0 ≤ dy → dy + image.height ≤ img.height →
    (strings.all fun string => disjoint string.2 (boxAt image dx dy)) = true →
    P (copy_pixels image img dx dy) (strings ++ [(label, boxAt image dx dy)])
      (placed ++ [(label, boxAt image dx dy, image)])

/-- A ghost record `(label, box, image)` is a placement of `image` inside a
`w` x `h` canvas, of a file that passed the checks of `candidate`. -/
def Placement (cfg : Config) (filenames : List File) (w h : Nat)
    (p : String × Box × Image) : Prop :=
  p.2.1.xmax = p.2.1.xmin + p.2.2.width ∧ p.2.1.ymax = p.2.1.ymin + p.2.2.height ∧
    0 ≤ p.2.1.xmin ∧ p.2.1.xmax ≤ w ∧ 0 ≤ p.2.1.ymin ∧ p.2.1.ymax ≤ h ∧
    ∃ filename ∈ filenames, regex_match filename.stem = some p.1 ∧
      p.1.length ≤ toSizeT cfg.sequence_lengths.2 ∧ filename.content = some p.2.2

/-- The invariant of canvas, entries and ghost record. -/
def Inv (cfg : Config) (filenames : List File) (w h : Nat) (img : Image)
    (strings : List (String × Box)) (placed : List (String × Box × Image)) : Prop :=
  img.width = w ∧ img.height = h ∧
    strings = placed.map (fun p => (p.1, p.2.1)) ∧
    placed.Pairwise (fun p q => disjoint p.2.1 q.2.1 = true) ∧
    (∀ p ∈ placed, Placement cfg filenames w h p) ∧
    (∀ p ∈ placed, ∀ u v : Nat, u < p.2.2.width → v < p.2.2.height →
      img.pixel (p.2.1.xmin.toNat + u) (p.2.1.ymin.toNat + v) = p.2.2.pixel u v) ∧
    (∀ x y : Nat, (∀ p ∈ placed, ¬ p.2.1.covers x y) → img.pixel x y = black)

/-! ## The stem of the specification -/

/-- The stem as the specification words it: the decimal index followed by
`"_" + label` for each label in order. -/
def stemOf (j : Nat) (labels : List String) : String :=
  toString j ++ String.join (labels.map fun label => "_" ++ label)

/-! ## Runs used to instantiate the theorems -/

/-- A `w` x `h` image of one colour. -/
def plain (w h c : Nat) : Image := ⟨w, h, fun _ _ => ⟨c, c, c⟩⟩

/-- A 2 x 2 image of one colour. -/
def tile (c : Nat) : Image := plain 2 2 c

/-- A corpus of five files: the labels `AB` and `C`, a stem without a label, a
file that does not decode, and an image of 7 x 7. -/
def demoCorpus : List File :=
  [⟨"1_AB_x", some (tile 1)⟩, ⟨"2_C_y", some (tile 2)⟩, ⟨"nolabel", some (tile 3)⟩,
    ⟨"3_D_z", none⟩, ⟨"4_E_w", some (plain 7 7 4)⟩]

/-- A 6 x 6 canvas, at most two labels of at most five characters, three retries. -/
def demoConfig : Config := ⟨"out", 6, 6, (2, 5), 8, 3⟩

/-- Engine whose outputs are `1, 2, 0, 3, 3, 1, 3, 3, 2, 2, 0, 0, 0, ...`.  With
`demoConfig` and `demoCorpus`: target 2; the file `nolabel` is rejected, `AB`
goes to (3, 3); `C` collides at (3, 3) and at (2, 2) and goes to (0, 0). -/
def demoEngine : Engine := ⟨fun n => [1, 2, 0, 3, 3, 1, 3, 3, 2, 2, 0, 0].getD n 0, 0⟩

/-- A buffer content that is nowhere black. -/
def demoMemory : Nat → Nat → Pixel := fun x y => ⟨x + 1, y + 1, 255⟩

/-- The value of `makeSample` when it is a sample. -/
def sampleOf (r : Except Fault Output) : Output :=
  match r with
  | .ok out => out
  | .error _ => ⟨0, false, ⟨tile 0, [], demoEngine, [], 0, 0, 0⟩, [], "", ""⟩

/-- The sample of `demoConfig`, `demoCorpus`, index 7 and `demoEngine`. -/
def demoOutput : Output := sampleOf (makeSample demoConfig demoCorpus 7 demoEngine demoMemory)

/-- A 3 x 3 canvas, at most two labels, two retries: a second 2 x 2 tile never
finds a free offset. -/
def crowdedConfig : Config := ⟨"out", 3, 3, (2, 5), 8, 2⟩

/-- The sample of `crowdedConfig`, `demoCorpus`, index 7 and `demoEngine`. -/
def crowdedOutput : Output := sampleOf (makeSample crowdedConfig demoCorpus 7 demoEngine demoMemory)

/-- A run with the file stem `a__b`: the pattern matches with an empty group. -/
def emptyLabelCorpus : List File := [⟨"a__b", some (tile 1)⟩]

/-- A 6 x 6 canvas, one label per sample. -/
def emptyLabelConfig : Config := ⟨"out", 6, 6, (1, 5), 8, 3⟩

/-- The sample of `emptyLabelConfig`, `emptyLabelCorpus`, index 7 and `demoEngine`. -/
def emptyLabelOutput : Output :=
  sampleOf (makeSample emptyLabelConfig emptyLabelCorpus 7 demoEngine demoMemory)

/-- The options of `demoConfig` with `sequence_lengths = (1, -1)`. -/
def negativeBoundConfig : Config := ⟨"out", 6, 6, (1, -1), 8, 3⟩

/-- The sample of `negativeBoundConfig`, `demoCorpus`, index 7 and `demoEngine`. -/
def negativeBoundOutput : Output :=
  sampleOf (makeSample negativeBoundConfig demoCorpus 7 demoEngine demoMemory)

/-! ## The offsets of a search, in draw order -/

/-- The box of offset trial number `k` (from 0) of a search for `image` that
starts with the variables `s`: `dx` is draw number `2 k` and `dy` draw number
`2 k + 1` from the engine of `s`. -/
def trialBox (image : Image) (s : Sample) (k : Nat) : Box :=
  boxAt image
    (0 + (s.engine.output (s.engine.pos + 2 * k) : Int) %
      ((s.multi_image.width : Int) - image.width - 0 + 1))
    (0 + (s.engine.output (s.engine.pos + 2 * k + 1) : Int) %
      ((s.multi_image.height : Int) - image.height - 0 + 1))

/-- Trial number `k` is disjoint from every committed box. -/
def trialFree (image : Image) (s : Sample) (k : Nat) : Bool :=
  s.strings.all fun string => disjoint string.2 (trialBox image s k)

/-- The variables of the demo run when the search for the second label, `C`,
starts: `AB` is committed at (3, 3) and six draws are made. -/
def demoSecondSearch : Sample :=
  ⟨copy_pixels (tile 1) (newCanvas demoConfig demoMemory) 3 3, [("AB", ⟨3, 3, 5, 5⟩)],
    ⟨demoEngine.output, 6⟩, [("AB", ⟨3, 3, 5, 5⟩, tile 1)], 3, 1, 2⟩

/-- The variables after the draw of a candidate: one more draw made, one more
candidate drawn. -/
def afterDraw (s : Sample) : Sample :=
  { s with engine := { s.engine with pos := s.engine.pos + 1 },
           candidate_draws := s.candidate_draws + 1 }

/-- A corpus of the one file `1_AB_x`. -/
def singleCorpus : List File := [⟨"1_AB_x", some (tile 1)⟩]

/-- A 6 x 6 canvas, `sequence_lengths = (1, 5)`, three retries. -/
def singleConfig : Config := ⟨"out", 6, 6, (1, 5), 8, 3⟩

/-- The options of `singleConfig` with `num_retries = 0`. -/
def noRetryConfig : Config := ⟨"out", 6, 6, (1, 5), 8, 0⟩

/-- The sample of `noRetryConfig`, `singleCorpus`, index 7 and `demoEngine`. -/
def noRetryOutput : Output := sampleOf
  (makeSample noRetryConfig singleCorpus 7 demoEngine demoMemory)

/-- A corpus of two images larger than a 6 x 6 canvas, one too wide and one too
high. -/
def oversizeCorpus : List File :=
  [⟨"1_AB_x", some (plain 7 2 1)⟩, ⟨"2_C_y", some (plain 2 9 2)⟩]

/-- The sample of `demoConfig`, `oversizeCorpus`, index 7 and `demoEngine`. -/
def oversizeOutput : Output := sampleOf
  (makeSample demoConfig oversizeCorpus 7 demoEngine demoMemory)

/-- Two files with 2 x 2 images. -/
def edgeCorpus : List File := [⟨"1_AB_x", some (tile 1)⟩, ⟨"2_C_y", some (tile 2)⟩]

/-- A canvas of width 4 and height 2, at most two labels, three retries: two
2 x 2 images fit side by side only with a common edge. -/
def edgeConfig : Config := ⟨"out", 4, 2, (2, 5), 8, 3⟩

/-- Two files with 4 x 2 images: as wide as a 4 x 4 canvas and half as high. -/
def halfCorpus : List File := [⟨"1_AB_x", some (plain 4 2 1)⟩, ⟨"2_C_y", some (plain 4 2 2)⟩]

/-- A 4 x 4 canvas, at most two labels, two retries. -/
def halfConfig : Config := ⟨"out", 4, 4, (2, 5), 8, 2⟩

/-- Two files with 2 x 3 images: half as high as a 6 x 6 canvas, less than half
as wide. -/
def narrowCorpus : List File := [⟨"1_AB_x", some (plain 2 3 1)⟩, ⟨"2_C_y", some (plain 2 3 2)⟩]

/-- Raw values that make the first two rounds draw the files 0 and 1 and the
offsets (0, 0) and (`w` + 1, 0), for a target of 2. -/
def sideBySide (w : Nat) : Engine := ⟨fun n => [1, 0, 0, 0, 1, w + 1, 0].getD n 0, 0⟩

/-! ## The threads -/

/-- The body of a thread (lines 63-130) on its indices `j`: the samples one
after the other, each drawing from `engine`, the variable of `main` that the
lambda `[&, i]` captures by reference; the engine a sample leaves is the
engine the next sample finds.  `memory j` is the content of the buffer
allocated for the sample `j`. -/
def thread (cfg : Config) (filenames : List File) (memory : Nat → Nat → Nat → Pixel) :
    List Nat → Engine → Except Fault (List Output × Engine)
  | [], engine => .ok ([], engine)
  | j :: js, engine =>
    match makeSample cfg filenames j engine (memory j) with
    | .error f => .error f
    | .ok out =>
      match thread cfg filenames memory js out.final.engine with
      | .error f => .error f
      | .ok (outs, engine1) => .ok (out :: outs, engine1)

/-- The threads on their index ranges, each run to its end before the next
starts: one of the schedules of lines 61-136.  Every thread draws from the
same `engine`. -/
def runThreads (cfg : Config) (filenames : List File) (memory : Nat → Nat → Nat → Pixel) :
    List (List Nat) → Engine → Except Fault (List (List Output) × Engine)
  | [], engine => .ok ([], engine)
  | shard :: shards, engine =>
    match thread cfg filenames memory shard engine with
    | .error f => .error f
    | .ok (outs, engine1) =>
      match runThreads cfg filenames memory shards engine1 with
      | .error f => .error f
      | .ok (rest, engine2) => .ok (outs :: rest, engine2)

/-- The samples of `main` with `num_threads` threads, under the schedule of
`runThreads`, from the state of the `engine` of line 52. -/
def mainInOrder (cfg : Config) (filenames : List File) (num_threads : Nat) (engine : Engine)
    (memory : Nat → Nat → Nat → Pixel) :
    Except Fault (List (List Output) × Engine) :=
  match schedule cfg.num_data num_threads with
  | .error f => .error f
  | .ok shards => runThreads cfg filenames memory shards engine

/-- The options of `demoConfig` with `num_data = 2`. -/
def twoSamplesConfig : Config := ⟨"out", 6, 6, (2, 5), 2, 3⟩

/-! ## Decompositions of a stem -/

/-- The stem is `p + "_" + label + "_" + q`, with `label` made of characters
of `[0-9A-Za-z]` and no line terminator in `p` and `q`. -/
def Splits (stem p label q : List Char) : Prop :=
  stem = p ++ '_' :: (label ++ '_' :: q) ∧ (∀ c ∈ p, dot c = true) ∧
    (∀ c ∈ label, alnum c = true) ∧ (∀ c ∈ q, dot c = true)

/-- The pattern after its first `.*`: `_([0-9A-Za-z]*)_.*` on the rest of the
stem. -/
def labelAndRest (r1 : List Char) : Option String :=
  lit '_' (fun r2 =>
    star alnum (fun group r3 =>
      lit '_' (fun r4 =>
        star dot (fun _ r5 =>
          match r5 with
          | [] => some (String.mk group.reverse)
          | _ :: _ => none) [] r4) r3) [] r2) r1

/-! ## Reading a decimal numeral -/

/-- The number a list of decimal digits writes. -/
def digitsValue (cs : List Char) : Nat :=
  cs.foldl (fun value c => 10 * value + (c.toNat - 48)) 0

/-! ## Lemmas on the random source and the loops -/

theorem uniform_ok {a b v : Int} {e e1 : Engine}
    (h : uniform_int_distribution a b e = .ok (v, e1)) :
    a ≤ v ∧ v ≤ b ∧ e1 = { e with pos := e.pos + 1 } := by
  unfold uniform_int_distribution at h
  split at h
  · rename_i hab
    injection h with h
    injection h with hv he
    have hpos : (0 : Int) < b - a + 1 := by omega
    have h1 := Int.emod_nonneg (e.output e.pos : Int) (ne_of_gt hpos)
    have h2 := Int.emod_lt_of_pos (e.output e.pos : Int) hpos
    subst hv
    exact ⟨by omega, by omega, he.symm⟩
  · cases h

/-- Every value of the range is drawn for some raw value of the engine. -/
theorem uniform_onto (a b v : Int) (pos : Nat) (ha : a ≤ v) (hb : v ≤ b) :
    uniform_int_distribution a b ⟨fun _ => (v - a).toNat, pos⟩ =
      .ok (v, ⟨fun _ => (v - a).toNat, pos + 1⟩) := by
  unfold uniform_int_distribution
  rw [if_pos (by omega)]
  have h1 : ((v - a).toNat : Int) = v - a := Int.toNat_of_nonneg (by omega)
  have h2 : (v - a) % (b - a + 1) = v - a := Int.emod_eq_of_lt (by omega) (by omega)
  simp only [h1, h2]
  congr 2
  omega

theorem uniform_defined {a b : Int} (e : Engine) (h : a ≤ b) :
    ∃ v, uniform_int_distribution a b e = .ok (v, { e with pos := e.pos + 1 }) := by
  unfold uniform_int_distribution
  rw [if_pos h]
  exact ⟨_, rfl⟩

theorem placeOffsets_inv
    (P : Image → List (String × Box) → List (String × Box × Image) → Prop)
    (label : String) (image : Image) (hstep : KeptByCommit P label image) :
    ∀ (m : Nat) (s s1 : Sample) (b : Bool),
      placeOffsets label image m s = .ok (b, s1) →
      P s.multi_image s.strings s.placed → P s1.multi_image s1.strings s1.placed := by
  intro m
  induction m with
  | zero =>
    intro s s1 b h hP
    simp only [placeOffsets] at h
    injection h with h
    injection h with _ hs
    subst hs
    exact hP
  | succ m ih =>
    intro s s1 b h hP
    simp only [placeOffsets] at h
    split at h
    · cases h
    · rename_i dx e1 hdx
      split at h
      · cases h
      · rename_i dy e2 hdy
        have hx := uniform_ok hdx
        have hy := uniform_ok hdy
        split at h
        · rename_i hall
          injection h with h
          injection h with _ hs
          subst hs
          exact hstep s.multi_image s.strings s.placed dx dy hP hx.1 (by omega) hy.1 (by omega) hall
        · exact ih _ s1 b h hP

theorem acquireLabel_inv (cfg : Config) (filenames : List File)
    (P : Image → List (String × Box) → List (String × Box × Image) → Prop)
    (hstep : ∀ (img : Image) (filename : File) (label : String) (image : Image),
      filename ∈ filenames → candidate cfg img filename = some (label, image) →
      KeptByCommit (fun i st pl => i.width = img.width ∧ i.height = img.height ∧ P i st pl)
        label image) :
    ∀ (l : Nat) (s s1 : Sample) (b : Bool),
      acquireLabel cfg filenames l s = .ok (b, s1) →
      P s.multi_image s.strings s.placed →
      s1.multi_image.width = s.multi_image.width ∧ s1.multi_image.height = s.multi_image.height ∧
        P s1.multi_image s1.strings s1.placed := by
  intro l
  induction l with
  | zero =>
    intro s s1 b h hP
    simp only [acquireLabel] at h
    injection h with h
    injection h with _ hs
    subst hs
    exact ⟨rfl, rfl, hP⟩
  | succ l ih =>
    intro s s1 b h hP
    simp only [acquireLabel] at h
    split at h
    · cases h
    · rename_i index e1 hindex
      split at h
      · cases h
      · rename_i filename hfile
        have hmem : filename ∈ filenames := List.getElem?_mem hfile
        split at h
        · have h3 := ih _ _ _ h hP
          exact h3
        · rename_i label image hcand
          have hplace := placeOffsets_inv _ label image
            (hstep s.multi_image filename label image hmem hcand) cfg.num_retries.toNat
          split at h
          · cases h
          · rename_i s2 hp
            injection h with h
            injection h with _ hs
            subst hs
            exact hplace _ _ _ hp ⟨rfl, rfl, hP⟩
          · rename_i s2 hp
            have h2 := hplace _ _ _ hp ⟨rfl, rfl, hP⟩
            have h3 := ih s2 s1 b h h2.2.2
            exact ⟨by rw [h3.1, h2.1], by rw [h3.2.1, h2.2.1], h3.2.2⟩

/-- What a call of the inner lambda does to the variables: it commits exactly
when it returns `true`; it never touches the counters of draws and rounds and
adds at most `m` offset trials. -/
theorem placeOffsets_effect (label : String) (image : Image) :
    ∀ (m : Nat) (s s1 : Sample) (b : Bool),
      placeOffsets label image m s = .ok (b, s1) →
      s1.candidate_draws = s.candidate_draws ∧ s1.rounds = s.rounds ∧
        s1.offset_trials ≤ s.offset_trials + m ∧
        (b = true → s1.strings.length = s.strings.length + 1) ∧
        (b = false → s1.strings = s.strings ∧ s1.multi_image = s.multi_image ∧
          s1.placed = s.placed) := by
  intro m
  induction m with
  | zero =>
    intro s s1 b h
    simp only [placeOffsets] at h
    injection h with h
    injection h with hb hs
    subst hs
    subst hb
    simp
  | succ m ih =>
    intro s s1 b h
    simp only [placeOffsets] at h
    split at h
    · cases h
    · split at h
      · cases h
      · split at h
        · injection h with h
          injection h with hb hs
          subst hs
          subst hb
          simp
        · have h3 := ih _ _ _ h
          simp only at h3
          refine ⟨h3.1, h3.2.1, by omega, h3.2.2.2.1, h3.2.2.2.2⟩

/-- What one acquisition round does to the variables: it commits exactly one
entry when it returns `true` and leaves canvas and entries as they were when
it returns `false`; it draws at most `l` candidates and at most
`l * num_retries` offsets. -/
theorem acquireLabel_effect (cfg : Config) (filenames : List File) :
    ∀ (l : Nat) (s s1 : Sample) (b : Bool),
      acquireLabel cfg filenames l s = .ok (b, s1) →
      s1.rounds = s.rounds ∧ s1.candidate_draws ≤ s.candidate_draws + l ∧
        s1.offset_trials ≤ s.offset_trials + l * cfg.num_retries.toNat ∧
        (b = true → s1.strings.length = s.strings.length + 1) ∧
        (b = false → s1.strings = s.strings ∧ s1.multi_image = s.multi_image ∧
          s1.placed = s.placed) := by
  intro l
  induction l with
  | zero =>
    intro s s1 b h
    simp only [acquireLabel] at h
    injection h with h
    injection h with hb hs
    subst hs
    subst hb
    simp
  | succ l ih =>
    intro s s1 b h
    simp only [acquireLabel] at h
    rw [Nat.succ_mul]
    split at h
    · cases h
    · split at h
      · cases h
      · split at h
        · have h3 := ih _ _ _ h
          simp only at h3
          refine ⟨h3.1, by omega, by omega, h3.2.2.2.1, h3.2.2.2.2⟩
        · rename_i label image hcand
          split at h
          · cases h
          · rename_i s2 hp
            have h2 := placeOffsets_effect label image _ _ _ _ hp
            simp only at h2
            injection h with h
            injection h with hb hs
            subst hs
            subst hb
            refine ⟨h2.2.1, by omega, by omega, fun _ => h2.2.2.2.1 (by trivial), fun hf => Bool.noConfusion hf⟩
          · rename_i s2 hp
            have h2 := placeOffsets_effect label image _ _ _ _ hp
            simp only at h2
            have h3 := ih _ _ _ h
            have h4 := h2.2.2.2.2 (by trivial)
            refine ⟨by omega, by omega, by omega, ?_, ?_⟩
            · intro hb
              rw [h3.2.2.2.1 hb, h4.1]
            · intro hb
              have h5 := h3.2.2.2.2 hb
              exact ⟨h5.1.trans h4.1, h5.2.1.trans h4.2.1, h5.2.2.trans h4.2.2⟩

/-- The `while` loop keeps a property that every commit keeps. -/
theorem whileLoop_inv (cfg : Config) (filenames : List File) (sequence_length : Int)
    (P : Image → List (String × Box) → List (String × Box × Image) → Prop)
    (hstep : ∀ (img : Image) (filename : File) (label : String) (image : Image),
      filename ∈ filenames → candidate cfg img filename = some (label, image) →
      KeptByCommit (fun i st pl => i.width = img.width ∧ i.height = img.height ∧ P i st pl)
        label image) :
    ∀ (fuel : Nat) (s s1 : Sample) (b : Bool),
      whileLoop cfg filenames sequence_length fuel s = .ok (b, s1) →
      P s.multi_image s.strings s.placed →
      s1.multi_image.width = s.multi_image.width ∧ s1.multi_image.height = s.multi_image.height ∧
        P s1.multi_image s1.strings s1.placed := by
  intro fuel
  induction fuel with
  | zero =>
    intro s s1 b h hP
    simp only [whileLoop] at h
    split at h
    · cases h
    · injection h with h
      injection h with _ hs
      subst hs
      exact ⟨rfl, rfl, hP⟩
  | succ fuel ih =>
    intro s s1 b h hP
    simp only [whileLoop] at h
    split at h
    · split at h
      · cases h
      · rename_i s2 hr
        have h2 := acquireLabel_inv cfg filenames P hstep _ _ _ _ hr hP
        simp only at h2
        have h3 := ih _ _ _ h h2.2.2
        exact ⟨by rw [h3.1, h2.1], by rw [h3.2.1, h2.2.1], h3.2.2⟩
      · rename_i s2 hr
        have h2 := acquireLabel_inv cfg filenames P hstep _ _ _ _ hr hP
        injection h with h
        injection h with _ hs
        subst hs
        exact h2
    · injection h with h
      injection h with _ hs
      subst hs
      exact ⟨rfl, rfl, hP⟩

/-- Counts of the `while` loop, with `t` the target count as a `size_t`: the
loop ends with `t` entries when it is not left through `break` and with fewer
when it is; it runs one round per committed entry and one more for the
`break`; each round draws at most `num_retries` candidates and
`num_retries * num_retries` offsets. -/
theorem whileLoop_effect (cfg : Config) (filenames : List File) (sequence_length : Int) :
    ∀ (fuel : Nat) (s s1 : Sample) (b : Bool),
      whileLoop cfg filenames sequence_length fuel s = .ok (b, s1) →
      s.strings.length ≤ toSizeT sequence_length →
      (b = false → s1.strings.length = toSizeT sequence_length) ∧
        (b = true → s1.strings.length < toSizeT sequence_length) ∧
        s.strings.length ≤ s1.strings.length ∧
        s1.rounds = s.rounds + (s1.strings.length - s.strings.length) + (if b then 1 else 0) ∧
        s1.candidate_draws + s.rounds * cfg.num_retries.toNat ≤
          s.candidate_draws + s1.rounds * cfg.num_retries.toNat ∧
        s1.offset_trials + s.rounds * (cfg.num_retries.toNat * cfg.num_retries.toNat) ≤
          s.offset_trials + s1.rounds * (cfg.num_retries.toNat * cfg.num_retries.toNat) := by
  intro fuel
  induction fuel with
  | zero =>
    intro s s1 b h hle
    simp only [whileLoop] at h
    split at h
    · cases h
    · injection h with h
      injection h with hb hs
      subst hs
      subst hb
      refine ⟨fun _ => by omega, fun hf => Bool.noConfusion hf, le_refl _, by simp, le_refl _, le_refl _⟩
  | succ fuel ih =>
    intro s s1 b h hle
    simp only [whileLoop] at h
    split at h
    · rename_i hlt
      split at h
      · cases h
      · rename_i s2 hr
        have h2 := acquireLabel_effect cfg filenames _ _ _ _ hr
        simp only at h2
        have hlen := h2.2.2.2.1 (by trivial)
        have h3 := ih _ _ _ h (by omega)
        rw [h2.1, Nat.add_mul, Nat.add_mul, Nat.one_mul, Nat.one_mul] at h3
        refine ⟨h3.1, h3.2.1, by omega, ?_, by omega, by omega⟩
        rw [h3.2.2.2.1]
        have h4 := h3.2.2.1
        omega
      · rename_i s2 hr
        have h2 := acquireLabel_effect cfg filenames _ _ _ _ hr
        simp only at h2
        have hsame := h2.2.2.2.2 (by trivial)
        injection h with h
        injection h with hb hs
        subst hs
        subst hb
        have hr1 := h2.1
        have hr2 := hsame.1
        rw [hr1, hr2, Nat.add_mul, Nat.add_mul, Nat.one_mul, Nat.one_mul]
        refine ⟨fun hf => Bool.noConfusion hf, fun _ => hlt, le_refl _, by simp, by omega, by omega⟩
    · injection h with h
      injection h with hb hs
      subst hs
      subst hb
      refine ⟨fun _ => by omega, fun hf => Bool.noConfusion hf, le_refl _, by simp, le_refl _, le_refl _⟩

theorem uniform_fault {a b : Int} {e : Engine} {f : Fault}
    (h : uniform_int_distribution a b e = .error f) : f = .undefined := by
  unfold uniform_int_distribution at h
  split at h
  · cases h
  · injection h with h
    exact h.symm

theorem placeOffsets_fault (label : String) (image : Image) :
    ∀ (m : Nat) (s : Sample) (f : Fault),
      placeOffsets label image m s = .error f → f = .undefined := by
  intro m
  induction m with
  | zero =>
    intro s f h
    simp only [placeOffsets] at h
    cases h
  | succ m ih =>
    intro s f h
    simp only [placeOffsets] at h
    split at h
    · rename_i g hg
      injection h with h
      subst h
      exact uniform_fault hg
    · split at h
      · rename_i g hg
        injection h with h
        subst h
        exact uniform_fault hg
      · split at h
        · cases h
        · exact ih _ f h

theorem acquireLabel_fault (cfg : Config) (filenames : List File) :
    ∀ (l : Nat) (s : Sample) (f : Fault),
      acquireLabel cfg filenames l s = .error f → f = .undefined := by
  intro l
  induction l with
  | zero =>
    intro s f h
    simp only [acquireLabel] at h
    cases h
  | succ l ih =>
    intro s f h
    simp only [acquireLabel] at h
    split at h
    · rename_i g hg
      injection h with h
      subst h
      exact uniform_fault hg
    · split at h
      · injection h with h
        exact h.symm
      · split at h
        · exact ih _ f h
        · split at h
          · rename_i g hg
            injection h with h
            subst h
            exact placeOffsets_fault _ _ _ _ _ hg
          · cases h
          · exact ih _ f h

/-- The fuel `toSizeT sequence_length - strings.size()` is enough for the `while` loop. -/
theorem whileLoop_fuel (cfg : Config) (filenames : List File) (sequence_length : Int) :
    ∀ (fuel : Nat) (s : Sample),
      toSizeT sequence_length ≤ s.strings.length + fuel →
      whileLoop cfg filenames sequence_length fuel s ≠ .error .out_of_fuel := by
  intro fuel
  induction fuel with
  | zero =>
    intro s hle h
    simp only [whileLoop] at h
    split at h
    · omega
    · cases h
  | succ fuel ih =>
    intro s hle h
    simp only [whileLoop] at h
    split at h
    · split at h
      · rename_i f hr
        injection h with h
        subst h
        have h2 := acquireLabel_fault cfg filenames _ _ _ hr
        cases h2
      · rename_i s2 hr
        have h2 := acquireLabel_effect cfg filenames _ _ _ _ hr
        simp only at h2
        have hlen := h2.2.2.2.1 (by trivial)
        exact ih s2 (by omega) h
      · cases h
    · cases h

/-! ## The checks on a candidate -/

/-- The checks of `candidate`, one by one. -/
theorem candidate_some (cfg : Config) (img : Image) (filename : File) (label : String)
    (image : Image) :
    candidate cfg img filename = some (label, image) ↔
      regex_match filename.stem = some label ∧ label.length ≤ toSizeT cfg.sequence_lengths.2 ∧
        filename.content = some image ∧ image.width ≤ img.width ∧ image.height ≤ img.height := by
  unfold candidate
  constructor
  · intro h
    split at h
    · cases h
    · rename_i lab hm
      split at h
      · cases h
      · rename_i hlen
        split at h
        · cases h
        · rename_i im hc
          split at h
          · cases h
          · rename_i hfit
            injection h with h
            injection h with h1 h2
            subst h1
            subst h2
            exact ⟨hm, by omega, hc, by omega, by omega⟩
  · rintro ⟨hm, hlen, hc, hw, hh⟩
    rw [hm]
    simp only
    rw [if_neg (by omega), hc]
    simp only
    rw [if_neg (by omega)]

/-! ## The invariant of the sample loop -/

/-- Boxes that `boost::geometry::disjoint` separates share no pixel coordinate. -/
theorem disjoint_covers {a b : Box} (h : disjoint a b = true) (x y : Int)
    (ha : a.covers x y) : ¬ b.covers x y := by
  unfold disjoint at h
  unfold Box.covers at *
  simp only [Bool.or_eq_true, decide_eq_true_eq] at h
  omega

theorem disjoint_symm {a b : Box} (h : disjoint a b = true) : disjoint b a = true := by
  unfold disjoint at *
  simp only [Bool.or_eq_true, decide_eq_true_eq] at *
  omega

theorem boxAt_covers (image : Image) (dx dy : Int) (x y : Int) :
    (boxAt image dx dy).covers x y ↔
      dx ≤ x ∧ x < dx + image.width ∧ dy ≤ y ∧ y < dy + image.height := by
  unfold boxAt Box.covers
  exact Iff.rfl

theorem Inv_kept (cfg : Config) (filenames : List File) (w h : Nat) (img0 : Image)
    (filename : File) (label : String) (image : Image) (hmem : filename ∈ filenames)
    (hcand : candidate cfg img0 filename = some (label, image)) :
    KeptByCommit (fun i st pl => i.width = img0.width ∧ i.height = img0.height ∧
      Inv cfg filenames w h i st pl) label image := by
  intro img strings placed dx dy hP hdx0 hdx1 hdy0 hdy1 hall
  obtain ⟨hw0, hh0, hw, hh, hmap, hpair, hplace, hpix, hblack⟩ := hP
  have hc := (candidate_some cfg img0 filename label image).1 hcand
  have hdis : ∀ p ∈ placed, disjoint p.2.1 (boxAt image dx dy) = true := by
    intro p hp
    rw [List.all_eq_true] at hall
    have := hall (p.1, p.2.1) (by rw [hmap]; exact List.mem_map_of_mem _ hp)
    exact this
  refine ⟨hw0, hh0, hw, hh, ?_, ?_, ?_, ?_, ?_⟩
  · rw [hmap, List.map_append]
    rfl
  · rw [List.pairwise_append]
    refine ⟨hpair, List.pairwise_singleton _ _, ?_⟩
    intro p hp q hq
    rw [List.mem_singleton] at hq
    subst hq
    exact hdis p hp
  · intro p hp
    rw [List.mem_append, List.mem_singleton] at hp
    rcases hp with hp | hp
    · exact hplace p hp
    · subst hp
      refine ⟨rfl, rfl, hdx0, ?_, hdy0, ?_, filename, hmem, hc.1, hc.2.1, hc.2.2.1⟩
      · show dx + image.width ≤ w
        omega
      · show dy + image.height ≤ h
        omega
  · intro p hp u v hu hv
    rw [List.mem_append, List.mem_singleton] at hp
    rcases hp with hp | hp
    · have hpl := hplace p hp
      obtain ⟨hx, hy, hx0, _, hy0, _, _⟩ := hpl
      have hcov : p.2.1.covers ((p.2.1.xmin.toNat + u : Nat) : Int)
          ((p.2.1.ymin.toNat + v : Nat) : Int) := by
        unfold Box.covers
        omega
      have hnot := disjoint_covers (hdis p hp) _ _ hcov
      rw [boxAt_covers] at hnot
      show (if _ then _ else _) = _
      rw [if_neg hnot]
      exact hpix p hp u v hu hv
    · subst hp
      have hu1 : u < image.width := hu
      have hv1 : v < image.height := hv
      have hcond : dx ≤ ((dx.toNat + u : Nat) : Int) ∧
          ((dx.toNat + u : Nat) : Int) < dx + image.width ∧
          dy ≤ ((dy.toNat + v : Nat) : Int) ∧
          ((dy.toNat + v : Nat) : Int) < dy + image.height := by
        omega
      have e1 : (((dx.toNat + u : Nat) : Int) - dx).toNat = u := by omega
      have e2 : (((dy.toNat + v : Nat) : Int) - dy).toNat = v := by omega
      show (if dx ≤ ((dx.toNat + u : Nat) : Int) ∧
          ((dx.toNat + u : Nat) : Int) < dx + image.width ∧
          dy ≤ ((dy.toNat + v : Nat) : Int) ∧
          ((dy.toNat + v : Nat) : Int) < dy + image.height then
        image.pixel (((dx.toNat + u : Nat) : Int) - dx).toNat
          (((dy.toNat + v : Nat) : Int) - dy).toNat
        else img.pixel (dx.toNat + u) (dy.toNat + v)) = image.pixel u v
      rw [if_pos hcond, e1, e2]
  · intro x y hfree
    have hnew : ¬ (boxAt image dx dy).covers x y :=
      hfree (label, boxAt image dx dy, image) (by simp)
    rw [boxAt_covers] at hnew
    show (if _ then _ else _) = _
    rw [if_neg hnew]
    exact hblack x y (fun p hp => hfree p (by simp [hp]))

/-! ## The sample as a whole -/

/-- The steps of a run of `makeSample` that ends with `out`. -/
theorem makeSample_ok {cfg : Config} {filenames : List File} {j : Nat} {engine : Engine}
    {memory : Nat → Nat → Pixel}
    {out : Output} (h : makeSample cfg filenames j engine memory = .ok out) :
    0 ≤ cfg.image_width ∧ 0 ≤ cfg.image_height ∧
      (∃ e1, uniform_int_distribution 1 cfg.sequence_lengths.1 engine =
          .ok (out.sequence_length, e1) ∧
        whileLoop cfg filenames out.sequence_length (toSizeT out.sequence_length)
          ⟨newCanvas cfg memory, [], e1, [], 0, 0, 0⟩ = .ok (out.broke, out.final)) ∧
      out.strings = sort out.final.strings ∧ out.stem = accumulate out.strings j ∧
      out.path = cfg.output_directory ++ "/" ++ out.stem ++ ".jpg" := by
  unfold makeSample at h
  split at h
  · cases h
  · rename_i hdim
    split at h
    · cases h
    · rename_i sl e1 hu
      split at h
      · cases h
      · rename_i broke s hw
        injection h with h
        subst h
        exact ⟨by omega, by omega, ⟨e1, hu, hw⟩, rfl, rfl, rfl⟩

/-- The final variables of a sample satisfy the invariant. -/
theorem makeSample_inv {cfg : Config} {filenames : List File} {j : Nat} {engine : Engine}
    {memory : Nat → Nat → Pixel}
    {out : Output} (h : makeSample cfg filenames j engine memory = .ok out) :
    Inv cfg filenames cfg.image_width.toNat cfg.image_height.toNat out.final.multi_image
      out.final.strings out.final.placed := by
  obtain ⟨_, _, ⟨e1, _, hw⟩, _⟩ := makeSample_ok h
  have h0 : Inv cfg filenames cfg.image_width.toNat cfg.image_height.toNat (newCanvas cfg memory) [] [] :=
    ⟨rfl, rfl, rfl, List.Pairwise.nil, fun _ hp => absurd hp (List.not_mem_nil _),
      fun _ hp => absurd hp (List.not_mem_nil _), fun _ _ _ => rfl⟩
  exact (whileLoop_inv cfg filenames out.sequence_length _
    (fun img filename label image hmem hcand =>
      Inv_kept cfg filenames _ _ img filename label image hmem hcand) _ _ _ _ hw h0).2.2

/-- The sorted entries are a permutation of the committed ones. -/
theorem sort_perm (strings : List (String × Box)) : (sort strings).Perm strings :=
  List.perm_insertionSort _ strings

theorem Inv_strings_pairwise {cfg : Config} {filenames : List File} {w h : Nat} {img : Image}
    {strings : List (String × Box)} {placed : List (String × Box × Image)}
    (hinv : Inv cfg filenames w h img strings placed) :
    strings.Pairwise (fun a b => disjoint a.2 b.2 = true) := by
  obtain ⟨_, _, hmap, hpair, _⟩ := hinv
  rw [hmap, List.pairwise_map]
  exact hpair

theorem Inv_strings_placed {cfg : Config} {filenames : List File} {w h : Nat} {img : Image}
    {strings : List (String × Box)} {placed : List (String × Box × Image)}
    (hinv : Inv cfg filenames w h img strings placed) (e : String × Box) (he : e ∈ strings) :
    ∃ p ∈ placed, e = (p.1, p.2.1) ∧ Placement cfg filenames w h p := by
  obtain ⟨_, _, hmap, _, hplace, _⟩ := hinv
  rw [hmap, List.mem_map] at he
  obtain ⟨p, hp, hpe⟩ := he
  exact ⟨p, hp, hpe.symm, hplace p hp⟩

/-! ## C1: committed placements are disjoint -/

/-- C1. In a finalized sample, every committed entry passed the disjointness
test against all entries committed before it (`final.strings` is the commit
order), and no pixel coordinate lies in the half-open rectangles of two
distinct entries of the sample. -/
theorem committed_placements_disjoint (cfg : Config) (filenames : List File) (j : Nat)
    (engine : Engine) (memory : Nat → Nat → Pixel) (out : Output)
        (h : makeSample cfg filenames j engine memory = .ok out) :
    (∀ (k : Nat) (hk : k < out.final.strings.length),
        ((out.final.strings.take k).all fun string =>
          disjoint string.2 (out.final.strings[k]).2) = true) ∧
      (∀ (i k : Nat) (hi : i < out.strings.length) (hk : k < out.strings.length), i ≠ k →
        ∀ x y : Int, ¬ ((out.strings[i]).2.covers x y ∧ (out.strings[k]).2.covers x y)) := by
  have hpair := Inv_strings_pairwise (makeSample_inv h)
  constructor
  · intro k hk
    rw [List.all_eq_true]
    intro e he
    rw [List.mem_take_iff_getElem] at he
    obtain ⟨i, hi, rfl⟩ := he
    exact List.pairwise_iff_getElem.1 hpair i k (by omega) hk (by omega)
  · intro i k hi hk hne x y hboth
    have hsorted : out.strings.Pairwise (fun a b => disjoint a.2 b.2 = true) := by
      rw [(makeSample_ok h).2.2.2.1]
      exact ((sort_perm _).pairwise_iff (fun hab => disjoint_symm hab)).2 hpair
    rcases Nat.lt_or_gt_of_ne hne with hlt | hgt
    · exact disjoint_covers (List.pairwise_iff_getElem.1 hsorted i k hi hk hlt) x y hboth.1 hboth.2
    · exact disjoint_covers (List.pairwise_iff_getElem.1 hsorted k i hk hi hgt) x y hboth.2 hboth.1

/-- C1 at the demo run: two entries, `AB` at (3, 3) and `C` at (0, 0). -/
theorem committed_placements_disjoint_witness :
    makeSample demoConfig demoCorpus 7 demoEngine demoMemory = .ok demoOutput ∧
      demoOutput.final.strings = [("AB", ⟨3, 3, 5, 5⟩), ("C", ⟨0, 0, 2, 2⟩)] ∧
      (∀ (i k : Nat) (hi : i < demoOutput.strings.length) (hk : k < demoOutput.strings.length),
        i ≠ k → ∀ x y : Int,
          ¬ ((demoOutput.strings[i]).2.covers x y ∧ (demoOutput.strings[k]).2.covers x y)) :=
  ⟨rfl, by decide,
    (committed_placements_disjoint demoConfig demoCorpus 7 demoEngine demoMemory demoOutput rfl).2⟩

/-! ## C2: committed placements lie inside the canvas -/

/-- C2. Every committed entry of a finalized sample has the box
`(dx, dy, dx + width, dy + height)` of its source image, and every pixel
coordinate the box covers lies in `[0, image_width) x [0, image_height)`. -/
theorem committed_placements_inside (cfg : Config) (filenames : List File) (j : Nat)
    (engine : Engine) (memory : Nat → Nat → Pixel) (out : Output)
        (h : makeSample cfg filenames j engine memory = .ok out) :
    ∀ e ∈ out.strings,
      (∃ p ∈ out.final.placed, e = (p.1, p.2.1) ∧ e.2 = boxAt p.2.2 e.2.xmin e.2.ymin) ∧
        ∀ x y : Int, e.2.covers x y →
          0 ≤ x ∧ x < cfg.image_width ∧ 0 ≤ y ∧ y < cfg.image_height := by
  intro e he
  have hok := makeSample_ok h
  rw [hok.2.2.2.1] at he
  have he1 : e ∈ out.final.strings := (sort_perm _).mem_iff.1 he
  obtain ⟨p, hp, hpe, hx, hy, hx0, hx1, hy0, hy1, _⟩ :=
    Inv_strings_placed (makeSample_inv h) e he1
  subst hpe
  constructor
  · refine ⟨p, hp, rfl, ?_⟩
    show p.2.1 = ⟨p.2.1.xmin, p.2.1.ymin, p.2.1.xmin + p.2.2.width, p.2.1.ymin + p.2.2.height⟩
    rw [← hx, ← hy]
  · intro x y hcov
    have hW := Int.toNat_of_nonneg hok.1
    have hH := Int.toNat_of_nonneg hok.2.1
    unfold Box.covers at hcov
    simp only at hcov
    omega

/-- C2 at the demo run. -/
theorem committed_placements_inside_witness :
    makeSample demoConfig demoCorpus 7 demoEngine demoMemory = .ok demoOutput ∧
      demoOutput.strings = [("C", ⟨0, 0, 2, 2⟩), ("AB", ⟨3, 3, 5, 5⟩)] ∧
      ∀ e ∈ demoOutput.strings,
        (∃ p ∈ demoOutput.final.placed, e = (p.1, p.2.1) ∧
          e.2 = boxAt p.2.2 e.2.xmin e.2.ymin) ∧
        ∀ x y : Int, e.2.covers x y → 0 ≤ x ∧ x < 6 ∧ 0 ≤ y ∧ y < 6 :=
  ⟨rfl, by decide,
    committed_placements_inside demoConfig demoCorpus 7 demoEngine demoMemory demoOutput rfl⟩

/-! ## C3: the number of committed entries -/

/-- C3. The target count of a sample is the one value drawn from
`[1, sequence_lengths[0]]` at the start; the sample ends with at most that many
entries, with exactly that many when the loop was not left through `break`
(no acquisition round failed) and with fewer when it was; the rounds run are
one per entry plus the failed one. -/
theorem committed_count (cfg : Config) (filenames : List File) (j : Nat)
    (engine : Engine) (memory : Nat → Nat → Pixel) (out : Output)
        (h : makeSample cfg filenames j engine memory = .ok out) :
    out.sequence_length = 1 + (engine.output engine.pos : Int) % cfg.sequence_lengths.1 ∧
      1 ≤ out.sequence_length ∧ out.sequence_length ≤ cfg.sequence_lengths.1 ∧
      out.strings.length = out.final.strings.length ∧
      (out.strings.length : Int) ≤ out.sequence_length ∧
      ((out.strings.length : Int) = out.sequence_length ↔ out.broke = false) ∧
      (out.broke = true → (out.strings.length : Int) < out.sequence_length) ∧
      out.final.rounds = out.strings.length + (if out.broke then 1 else 0) := by
  obtain ⟨_, _, ⟨e1, hu, hw⟩, hsort, _⟩ := makeSample_ok h
  have hrange := uniform_ok hu
  have hval : out.sequence_length = 1 + (engine.output engine.pos : Int) % cfg.sequence_lengths.1 := by
    unfold uniform_int_distribution at hu
    split at hu
    · injection hu with hu
      injection hu with hv _
      rw [← hv]
      congr 2
      omega
    · cases hu
  have hlen : out.strings.length = out.final.strings.length := by
    rw [hsort]
    exact (sort_perm _).length_eq
  have hT : (toSizeT out.sequence_length : Int) = out.sequence_length := by
    unfold toSizeT
    rw [if_pos (by omega)]
    exact Int.toNat_of_nonneg (by omega)
  have heff := whileLoop_effect cfg filenames out.sequence_length _ _ _ _ hw (Nat.zero_le _)
  simp only [List.length_nil, Nat.sub_zero, Nat.zero_add] at heff
  obtain ⟨hfalse, htrue, _, hrounds, _⟩ := heff
  rw [hlen]
  refine ⟨hval, hrange.1, hrange.2.1, rfl, ?_, ?_, ?_, hrounds⟩
  · cases hb : out.broke with
    | false => have := hfalse hb; omega
    | true => have := htrue hb; omega
  · constructor
    · intro heq
      cases hb : out.broke with
      | false => rfl
      | true => have := htrue hb; omega
    · intro hb
      have := hfalse hb
      omega
  · intro hb
    have := htrue hb
    omega

/-- C3 at the demo run (target 2, two entries, no failed round) and at the
crowded run (target 2, one entry, the second round fails). -/
theorem committed_count_witness :
    makeSample demoConfig demoCorpus 7 demoEngine demoMemory = .ok demoOutput ∧
      demoOutput.sequence_length = 2 ∧ demoOutput.strings.length = 2 ∧
      demoOutput.broke = false ∧ demoOutput.final.rounds = 2 ∧
      makeSample crowdedConfig demoCorpus 7 demoEngine demoMemory = .ok crowdedOutput ∧
      crowdedOutput.sequence_length = 2 ∧ crowdedOutput.strings.length = 1 ∧
      crowdedOutput.broke = true ∧ crowdedOutput.final.rounds = 2 ∧
      ((crowdedOutput.strings.length : Int) = crowdedOutput.sequence_length ↔
        crowdedOutput.broke = false) :=
  have hc := committed_count demoConfig demoCorpus 7 demoEngine demoMemory demoOutput rfl
  have hd := committed_count crowdedConfig demoCorpus 7 demoEngine demoMemory crowdedOutput rfl
  ⟨rfl, hc.1, by decide, hc.2.2.2.2.2.1.1 (by decide), by decide,
    rfl, hd.1, by decide, by decide, by decide, hd.2.2.2.2.2.1⟩

/-! ## C4: the reading order -/

theorem before_eq_true (a b : String × Box) :
    before a b = true ↔ a.2.ymin < b.2.ymin ∨ (a.2.ymin = b.2.ymin ∧ a.2.xmin < b.2.xmin) := by
  unfold before
  simp only [Bool.or_eq_true, Bool.and_eq_true, decide_eq_true_eq]

theorem before_eq_false (a b : String × Box) :
    before a b = false ↔ b.2.ymin < a.2.ymin ∨ (a.2.ymin = b.2.ymin ∧ b.2.xmin ≤ a.2.xmin) := by
  rw [← Bool.not_eq_true, before_eq_true]
  omega

/-- No element of the sorted list is before an earlier one. -/
theorem sort_sorted (strings : List (String × Box)) :
    (sort strings).Pairwise (fun a b => before b a = false) :=
  List.sorted_insertionSort _ strings

/-- Boxes with the same minimum corner are not disjoint. -/
theorem same_corner_not_disjoint {a b : Box} (hax : a.xmin ≤ a.xmax) (hay : a.ymin ≤ a.ymax)
    (hbx : b.xmin ≤ b.xmax) (hby : b.ymin ≤ b.ymax) (hx : a.xmin = b.xmin)
    (hy : a.ymin = b.ymin) : disjoint a b = false := by
  rw [← Bool.not_eq_true]
  unfold disjoint
  simp only [Bool.or_eq_true, decide_eq_true_eq]
  omega

/-- A permutation of the committed entries in which no entry is before an
earlier one is strictly ordered by the comparator: two committed entries never
have the same `(y_min, x_min)`. -/
theorem strict_of_sorted {cfg : Config} {filenames : List File} {w h : Nat} {img : Image}
    {strings : List (String × Box)} {placed : List (String × Box × Image)}
    (hinv : Inv cfg filenames w h img strings placed) (l : List (String × Box))
    (hperm : l.Perm strings) (hord : l.Pairwise (fun a b => before b a = false)) :
    l.Pairwise (fun a b => before a b = true) := by
  have hdis : l.Pairwise (fun a b => disjoint a.2 b.2 = true) :=
    (hperm.pairwise_iff (fun hab => disjoint_symm hab)).2 (Inv_strings_pairwise hinv)
  have hbox : ∀ e ∈ l, e.2.xmin ≤ e.2.xmax ∧ e.2.ymin ≤ e.2.ymax := by
    intro e he
    obtain ⟨p, _, hpe, hx, hy, _⟩ := Inv_strings_placed hinv e (hperm.mem_iff.1 he)
    rw [hpe]
    show p.2.1.xmin ≤ p.2.1.xmax ∧ p.2.1.ymin ≤ p.2.1.ymax
    omega
  refine (hord.and hdis).imp_of_mem ?_
  intro a b ha hb hab
  obtain ⟨h1, h2⟩ := hab
  rw [before_eq_false] at h1
  rw [before_eq_true]
  by_contra hcon
  have hx : a.2.xmin = b.2.xmin := by omega
  have hy : a.2.ymin = b.2.ymin := by omega
  have h3 := same_corner_not_disjoint (hbox a ha).1 (hbox a ha).2 (hbox b hb).1 (hbox b hb).2 hx hy
  rw [h2] at h3
  cases h3

/-- The sorted list does not depend on the sorting algorithm: every
permutation of the committed entries in which no entry is before an earlier
one is the list `sort` gives. -/
theorem sorted_unique (cfg : Config) (filenames : List File) (j : Nat)
    (engine : Engine) (memory : Nat → Nat → Pixel) (out : Output)
        (h : makeSample cfg filenames j engine memory = .ok out)
    (l : List (String × Box)) (hperm : l.Perm out.final.strings)
    (hord : l.Pairwise (fun a b => before b a = false)) : l = out.strings := by
  have hinv := makeSample_inv h
  have hsort := (makeSample_ok h).2.2.2.1
  have h1 := strict_of_sorted hinv l hperm hord
  have h2 := strict_of_sorted hinv (sort out.final.strings) (sort_perm _) (sort_sorted _)
  rw [hsort]
  exact List.eq_of_perm_of_sorted (hperm.trans (sort_perm _).symm) h1 h2

/-- C4. The sorted sequence of a finalized sample is a permutation of the
committed entries, and for two distinct positions `i`, `k` of it the entry at
`i` comes first exactly when its `y_min` is smaller, or the `y_min` are equal
and its `x_min` is smaller; no two positions hold the same `(y_min, x_min)`. -/
theorem reading_order (cfg : Config) (filenames : List File) (j : Nat)
    (engine : Engine) (memory : Nat → Nat → Pixel) (out : Output)
        (h : makeSample cfg filenames j engine memory = .ok out) :
    out.strings.Perm out.final.strings ∧
      ∀ (i k : Nat) (hi : i < out.strings.length) (hk : k < out.strings.length), i ≠ k →
        (i < k ↔ ((out.strings[i]).2.ymin < (out.strings[k]).2.ymin ∨
          ((out.strings[i]).2.ymin = (out.strings[k]).2.ymin ∧
            (out.strings[i]).2.xmin < (out.strings[k]).2.xmin))) ∧
        ¬ ((out.strings[i]).2.ymin = (out.strings[k]).2.ymin ∧
          (out.strings[i]).2.xmin = (out.strings[k]).2.xmin) := by
  have hsort := (makeSample_ok h).2.2.2.1
  have hperm : out.strings.Perm out.final.strings := by
    rw [hsort]
    exact sort_perm _
  have hord : out.strings.Pairwise (fun a b => before b a = false) := by
    rw [hsort]
    exact sort_sorted _
  have hstrict := strict_of_sorted (makeSample_inv h) out.strings hperm hord
  have hlt : ∀ (i k : Nat) (hi : i < out.strings.length) (hk : k < out.strings.length), i < k →
      ((out.strings[i]).2.ymin < (out.strings[k]).2.ymin ∨
        ((out.strings[i]).2.ymin = (out.strings[k]).2.ymin ∧
          (out.strings[i]).2.xmin < (out.strings[k]).2.xmin)) := by
    intro i k hi hk hik
    exact (before_eq_true _ _).1 (List.pairwise_iff_getElem.1 hstrict i k hi hk hik)
  refine ⟨hperm, ?_⟩
  intro i k hi hk hne
  rcases Nat.lt_or_gt_of_ne hne with hik | hki
  · have h1 := hlt i k hi hk hik
    exact ⟨⟨fun _ => h1, fun _ => hik⟩, by omega⟩
  · have h1 := hlt k i hk hi hki
    exact ⟨⟨fun hik => by omega, fun h2 => by omega⟩, by omega⟩

/-- C4 at the demo run: committed as `AB`, `C`; sorted as `C`, `AB`. -/
theorem reading_order_witness :
    makeSample demoConfig demoCorpus 7 demoEngine demoMemory = .ok demoOutput ∧
      demoOutput.final.strings = [("AB", ⟨3, 3, 5, 5⟩), ("C", ⟨0, 0, 2, 2⟩)] ∧
      demoOutput.strings = [("C", ⟨0, 0, 2, 2⟩), ("AB", ⟨3, 3, 5, 5⟩)] ∧
      demoOutput.strings.Perm demoOutput.final.strings :=
  ⟨rfl, by decide, by decide,
    (reading_order demoConfig demoCorpus 7 demoEngine demoMemory demoOutput rfl).1⟩

/-! ## C5: the output path -/

theorem foldl_label_join (l : List (String × Box)) : ∀ acc : String,
    l.foldl (fun acc string => acc ++ "_" ++ string.1) acc =
      acc ++ String.join ((l.map Prod.fst).map fun label => "_" ++ label) := by
  induction l with
  | nil =>
    intro acc
    apply String.ext
    simp [String.join_eq]
  | cons a l ih =>
    intro acc
    rw [List.foldl_cons, ih]
    apply String.ext
    simp [String.join_eq, String.data_append, List.append_assoc]

theorem foldl_label_intercalate (l : List (String × Box)) : ∀ acc : String,
    l.foldl (fun acc string => acc ++ "_" ++ string.1) acc =
      String.intercalate.go acc "_" (l.map Prod.fst) := by
  induction l with
  | nil =>
    intro acc
    rfl
  | cons a l ih =>
    intro acc
    rw [List.foldl_cons, ih]
    rfl

/-- The fold of line 124 builds the stem of the specification. -/
theorem accumulate_eq_stemOf (strings : List (String × Box)) (j : Nat) :
    accumulate strings j = stemOf j (strings.map Prod.fst) :=
  foldl_label_join strings (toString j)

/-- C5. The path written for the sample of index `j` is
`output_directory + "/" + stem + ".jpg"`, where the stem is the decimal index
followed by `"_" + label` for each sorted label, that is, the index and the
labels joined by underscores; with no label the stem is the decimal index. -/
theorem output_path (cfg : Config) (filenames : List File) (j : Nat)
    (engine : Engine) (memory : Nat → Nat → Pixel) (out : Output)
        (h : makeSample cfg filenames j engine memory = .ok out) :
    out.path = cfg.output_directory ++ "/" ++ out.stem ++ ".jpg" ∧
      out.stem = stemOf j (out.strings.map Prod.fst) ∧
      out.stem = String.intercalate "_" (toString j :: out.strings.map Prod.fst) ∧
      (out.strings = [] → out.stem = toString j) := by
  obtain ⟨_, _, _, _, hstem, hpath⟩ := makeSample_ok h
  refine ⟨hpath, ?_, ?_, ?_⟩
  · rw [hstem]
    exact accumulate_eq_stemOf _ _
  · rw [hstem]
    exact foldl_label_intercalate _ _
  · intro hnil
    rw [hstem, hnil]
    rfl

/-- C5 at the demo run: index 7, sorted labels `C`, `AB`. -/
theorem output_path_witness :
    makeSample demoConfig demoCorpus 7 demoEngine demoMemory = .ok demoOutput ∧
      demoOutput.strings.map Prod.fst = ["C", "AB"] ∧
      demoOutput.path = "out/7_C_AB.jpg" ∧
      demoOutput.stem = stemOf 7 (demoOutput.strings.map Prod.fst) :=
  ⟨rfl, by decide, by decide,
    (output_path demoConfig demoCorpus 7 demoEngine demoMemory demoOutput rfl).2.1⟩

/-! ## C6: the labels of the stem -/

theorem star_some {α : Type} (p : Char → Bool) (k : List Char → List Char → Option α) :
    ∀ (input taken : List Char) (r : α), star p k taken input = some r →
      ∃ pre rest, input = pre ++ rest ∧ (∀ c ∈ pre, p c = true) ∧
        k (pre.reverse ++ taken) rest = some r := by
  intro input
  induction input with
  | nil =>
    intro taken r h
    exact ⟨[], [], rfl, fun _ hc => absurd hc (List.not_mem_nil _), h⟩
  | cons c cs ih =>
    intro taken r h
    simp only [star] at h
    split at h
    · rename_i hpc
      split at h
      · rename_i r1 hs
        injection h with h
        subst h
        obtain ⟨pre, rest, hcs, hall, hk⟩ := ih _ _ hs
        refine ⟨c :: pre, rest, by rw [hcs]; rfl, ?_, ?_⟩
        · intro d hd
          rcases List.mem_cons.1 hd with hd | hd
          · rw [hd]
            exact hpc
          · exact hall d hd
        · rw [List.reverse_cons, List.append_assoc]
          exact hk
      · exact ⟨[], c :: cs, rfl, fun _ hc => absurd hc (List.not_mem_nil _), h⟩
    · exact ⟨[], c :: cs, rfl, fun _ hc => absurd hc (List.not_mem_nil _), h⟩

theorem lit_some {α : Type} (c : Char) (k : List Char → Option α) (input : List Char) (r : α)
    (h : lit c k input = some r) : ∃ ds, input = c :: ds ∧ k ds = some r := by
  cases input with
  | nil => cases h
  | cons d ds =>
    simp only [lit] at h
    split at h
    · rename_i hd
      exact ⟨ds, by rw [hd], h⟩
    · cases h

/-- A stem that matches the pattern is `p + "_" + label + "_" + q` with only
alphanumeric characters in the label. -/
theorem regex_match_some (string label : String) (h : regex_match string = some label) :
    ∃ p q : List Char, string.data = p ++ '_' :: (label.data ++ '_' :: q) ∧
      (∀ c ∈ p, dot c = true) ∧ (∀ c ∈ label.data, alnum c = true) ∧
      (∀ c ∈ q, dot c = true) := by
  unfold regex_match at h
  obtain ⟨p, r1, hs, hp, h⟩ := star_some _ _ _ _ _ h
  obtain ⟨r2, hr1, h⟩ := lit_some _ _ _ _ h
  obtain ⟨g, r3, hr2, hg, h⟩ := star_some _ _ _ _ _ h
  obtain ⟨r4, hr3, h⟩ := lit_some _ _ _ _ h
  obtain ⟨q, r5, hr4, hq, h⟩ := star_some _ _ _ _ _ h
  split at h
  · injection h with h
    subst h
    refine ⟨p, q, ?_, hp, ?_, hq⟩
    · rw [hs, hr1, hr2, hr3, hr4]
      simp
    · simpa using hg
  · cases h

/-- C6, counterexample. With the one file stem `a__b` the sample commits the
empty label: the stem of the output is `7_`, and the label after the
underscore is not a non-empty alphanumeric string. -/
theorem empty_label_committed :
    makeSample emptyLabelConfig emptyLabelCorpus 7 demoEngine demoMemory = .ok emptyLabelOutput ∧
      emptyLabelOutput.strings = [("", ⟨0, 3, 2, 5⟩)] ∧
      emptyLabelOutput.stem = "7_" ∧ emptyLabelOutput.path = "out/7_.jpg" ∧
      ¬ (∀ e ∈ emptyLabelOutput.strings, e.1 ≠ "") :=
  ⟨rfl, by decide, by decide, by decide, by decide⟩

/-- C6, amended. The stem of every sample is its decimal index followed by
`"_" + label` for each sorted label, and every label consists of characters of
`[0-9A-Za-z]` only (it matches `[0-9A-Za-z]*` and may be empty). -/
theorem stem_labels_alnum (cfg : Config) (filenames : List File) (j : Nat)
    (engine : Engine) (memory : Nat → Nat → Pixel) (out : Output)
        (h : makeSample cfg filenames j engine memory = .ok out) :
    out.stem = toString j ++ String.join ((out.strings.map Prod.fst).map fun label => "_" ++ label) ∧
      ∀ e ∈ out.strings, ∀ c ∈ e.1.data, alnum c = true := by
  obtain ⟨_, _, _, hsort, hstem, _⟩ := makeSample_ok h
  constructor
  · rw [hstem]
    exact foldl_label_join _ _
  · intro e he c hc
    rw [hsort] at he
    obtain ⟨p, _, hpe, _, _, _, _, _, _, filename, _, hm, _⟩ :=
      Inv_strings_placed (makeSample_inv h) e ((sort_perm _).mem_iff.1 he)
    obtain ⟨_, _, _, _, hl, _⟩ := regex_match_some _ _ hm
    rw [hpe] at hc
    exact hl c hc

/-- C6 (amended) at the run with the empty label and at the demo run. -/
theorem stem_labels_alnum_witness :
    makeSample emptyLabelConfig emptyLabelCorpus 7 demoEngine demoMemory = .ok emptyLabelOutput ∧
      (∀ e ∈ emptyLabelOutput.strings, ∀ c ∈ e.1.data, alnum c = true) ∧
      makeSample demoConfig demoCorpus 7 demoEngine demoMemory = .ok demoOutput ∧
      demoOutput.stem = "7_C_AB" ∧
      (∀ e ∈ demoOutput.strings, ∀ c ∈ e.1.data, alnum c = true) :=
  ⟨rfl, (stem_labels_alnum emptyLabelConfig emptyLabelCorpus 7 demoEngine demoMemory emptyLabelOutput rfl).2,
    rfl, by decide,
      (stem_labels_alnum demoConfig demoCorpus 7 demoEngine demoMemory demoOutput rfl).2⟩

/-! ## C7: the index ranges of the workers -/

theorem toUnsigned_of_int (T : Int) (h0 : 0 ≤ T) (h1 : T < 2 ^ 31) : toUnsigned T = T.toNat := by
  unfold toUnsigned
  rw [Int.emod_eq_of_lt h0 (by omega)]

theorem shard_eq_range (n N i : Nat) (hi : i < N) (hb : n * N < 2 ^ 32) :
    shard n i = List.range' (n * i) n := by
  have h1 : n * (i + 1) ≤ n * N := Nat.mul_le_mul_left n hi
  have h2 : n * (i + 1) = n * i + n := Nat.mul_succ n i
  unfold shard loopIndices
  rw [Nat.mod_eq_of_lt (by omega), Nat.mod_eq_of_lt (by omega)]
  congr 1
  omega

theorem flatten_ranges (n : Nat) : ∀ m : Nat,
    ((List.range m).map fun i => List.range' (n * i) n).flatten = List.range (n * m) := by
  intro m
  induction m with
  | zero => rfl
  | succ m ih =>
    rw [List.range_succ, List.map_append, List.flatten_append, ih, List.range_eq_range',
      List.range_eq_range', Nat.mul_succ]
    simp only [List.map_cons, List.map_nil, List.flatten_cons, List.flatten_nil, List.append_nil]
    have := List.range'_append 0 (n * m) n 1
    simp only [Nat.zero_add, Nat.one_mul] at this
    rw [this, Nat.add_comm]

/-- C7. For a total count `0 ≤ T` (an `int`) and `N ≥ 1` workers, with
`q = floor(T / N)`: worker `i < N` runs through the indices `i * q, ..., (i + 1) * q - 1`;
the ranges of the workers, one after the other, are `0, ..., N * q - 1`, so
every index below `N * q` is produced exactly once and no other index is
produced; `N * q` samples are produced, fewer than `T` when `N` does not
divide `T`. -/
theorem shards_partition (T : Int) (N : Nat) (hT0 : 0 ≤ T) (hT : T < 2 ^ 31) (hN : 1 ≤ N) :
    ∃ shards : List (List Nat), schedule T N = .ok shards ∧ shards.length = N ∧
      (∀ (i : Nat) (hi : i < shards.length),
        shards[i] = List.range' (i * (T.toNat / N)) (T.toNat / N)) ∧
      shards.flatten = List.range (N * (T.toNat / N)) ∧
      (∀ j : Nat, shards.flatten.count j = if j < N * (T.toNat / N) then 1 else 0) ∧
      shards.flatten.length = N * (T.toNat / N) ∧
      N * (T.toNat / N) ≤ T.toNat ∧
      (¬ N ∣ T.toNat → N * (T.toNat / N) < T.toNat) := by
  have hq : N * (T.toNat / N) ≤ T.toNat := Nat.mul_div_le _ _
  have hb : T.toNat / N * N < 2 ^ 32 := by
    rw [Nat.mul_comm]
    omega
  have hmap : (List.range N).map (shard (T.toNat / N)) =
      (List.range N).map fun i => List.range' (T.toNat / N * i) (T.toNat / N) := by
    apply List.map_congr_left
    intro i hi
    exact shard_eq_range _ N i (List.mem_range.1 hi) hb
  have hflat : ((List.range N).map (shard (T.toNat / N))).flatten =
      List.range (N * (T.toNat / N)) := by
    rw [hmap, flatten_ranges, Nat.mul_comm]
  refine ⟨(List.range N).map (shard (T.toNat / N)), ?_, by simp, ?_, hflat, ?_, ?_, hq, ?_⟩
  · unfold schedule num_data
    rw [if_neg (by omega), toUnsigned_of_int T hT0 hT]
  · intro i hi
    have hi1 : i < N := by simpa using hi
    rw [List.getElem_map, List.getElem_range, shard_eq_range _ N i hi1 hb, Nat.mul_comm]
  · intro j
    rw [hflat]
    split
    · rename_i hj
      exact List.count_eq_one_of_mem (List.nodup_range _) (List.mem_range.2 hj)
    · rename_i hj
      exact List.count_eq_zero_of_not_mem (fun hm => hj (List.mem_range.1 hm))
  · rw [hflat, List.length_range]
  · intro hdvd
    rcases Nat.lt_or_ge (N * (T.toNat / N)) T.toNat with hlt | hge
    · exact hlt
    · exact absurd ⟨T.toNat / N, (Nat.le_antisymm hq hge).symm⟩ hdvd

/-- C7 at `T = 10`, `N = 3`: three ranges of three indices, index 9 is dropped. -/
theorem shards_partition_witness :
    schedule 10 3 = .ok [[0, 1, 2], [3, 4, 5], [6, 7, 8]] ∧
      ∃ shards : List (List Nat), schedule 10 3 = .ok shards ∧ shards.length = 3 ∧
        (∀ (i : Nat) (hi : i < shards.length),
          shards[i] = List.range' (i * ((10 : Int).toNat / 3)) ((10 : Int).toNat / 3)) ∧
        shards.flatten = List.range (3 * ((10 : Int).toNat / 3)) ∧
        (∀ j : Nat, shards.flatten.count j = if j < 3 * ((10 : Int).toNat / 3) then 1 else 0) ∧
        shards.flatten.length = 3 * ((10 : Int).toNat / 3) ∧
        3 * ((10 : Int).toNat / 3) ≤ (10 : Int).toNat ∧
        (¬ 3 ∣ (10 : Int).toNat → 3 * ((10 : Int).toNat / 3) < (10 : Int).toNat) :=
  ⟨rfl, shards_partition 10 3 (by decide) (by decide) (by decide)⟩

/-! ## C8: the checks before the offset search -/

theorem toSizeT_of_nonneg (i : Int) (h : 0 ≤ i) : (toSizeT i : Int) = i := by
  unfold toSizeT
  rw [if_pos h]
  exact Int.toNat_of_nonneg h

/-- With a bound `sequence_lengths[1] ≥ 0`, a drawn file reaches the offset
search exactly when its stem matches, the label is not longer than the bound,
the file decodes, and the image is not larger than the canvas. -/
theorem candidate_checks (cfg : Config) (img : Image) (filename : File) (label : String)
    (image : Image) (hbound : 0 ≤ cfg.sequence_lengths.2) :
    candidate cfg img filename = some (label, image) ↔
      regex_match filename.stem = some label ∧ (label.length : Int) ≤ cfg.sequence_lengths.2 ∧
        filename.content = some image ∧ image.width ≤ img.width ∧ image.height ≤ img.height := by
  rw [candidate_some]
  have := toSizeT_of_nonneg _ hbound
  constructor
  · rintro ⟨h1, h2, h3⟩
    exact ⟨h1, by omega, h3⟩
  · rintro ⟨h1, h2, h3⟩
    exact ⟨h1, by omega, h3⟩

/-- A drawn file that fails a check uses up one iteration of the outer loop and
leaves canvas and entries as they are: the loop goes on with one iteration
less, the engine one output further. -/
theorem acquireLabel_rejected (cfg : Config) (filenames : List File) (l : Nat) (s : Sample)
    (index : Int) (e1 : Engine) (filename : File)
    (hdraw : uniform_int_distribution 0 ((filenames.length : Int) - 1) s.engine = .ok (index, e1))
    (hfile : filenames[index.toNat]? = some filename)
    (hrej : candidate cfg s.multi_image filename = none) :
    acquireLabel cfg filenames (l + 1) s =
      acquireLabel cfg filenames l
        { s with engine := e1, candidate_draws := s.candidate_draws + 1 } := by
  simp only [acquireLabel]
  rw [hdraw]
  simp only
  rw [hfile]
  simp only
  rw [hrej]

/-- With a bound `sequence_lengths[1] ≥ 0`, no committed label is longer than it. -/
theorem committed_label_length (cfg : Config) (filenames : List File) (j : Nat)
    (engine : Engine) (memory : Nat → Nat → Pixel) (out : Output)
        (h : makeSample cfg filenames j engine memory = .ok out)
    (hbound : 0 ≤ cfg.sequence_lengths.2) :
    ∀ e ∈ out.strings, (e.1.length : Int) ≤ cfg.sequence_lengths.2 := by
  intro e he
  rw [(makeSample_ok h).2.2.2.1] at he
  obtain ⟨p, _, hpe, _, _, _, _, _, _, filename, _, _, hlen, _⟩ :=
    Inv_strings_placed (makeSample_inv h) e ((sort_perm _).mem_iff.1 he)
  have := toSizeT_of_nonneg _ hbound
  rw [hpe]
  show (p.1.length : Int) ≤ cfg.sequence_lengths.2
  omega

/-- C8, failing input. With `sequence_lengths[1] = -1` the comparison
`size() > -1` converts the bound to `2^64 - 1` and rejects no label: the file
`1_AB_x` passes the checks and the label `AB`, of length 2, is committed,
although 2 is not at most -1. -/
theorem negative_bound_accepts :
    toSizeT negativeBoundConfig.sequence_lengths.2 = 2 ^ 64 - 1 ∧
      (candidate negativeBoundConfig (newCanvas negativeBoundConfig demoMemory)
        ⟨"1_AB_x", some (tile 1)⟩).map Prod.fst = some "AB" ∧
      makeSample negativeBoundConfig demoCorpus 7 demoEngine demoMemory = .ok negativeBoundOutput ∧
      negativeBoundOutput.strings = [("AB", ⟨3, 3, 5, 5⟩)] ∧
      ¬ (("AB".length : Int) ≤ negativeBoundConfig.sequence_lengths.2) :=
  ⟨by decide, by decide, rfl, by decide, by decide⟩

/-! ## C9: the retry budget -/

theorem placeOffsets_defined (label : String) (image : Image) :
    ∀ (m : Nat) (s : Sample), image.width ≤ s.multi_image.width →
      image.height ≤ s.multi_image.height →
      ∃ b s1, placeOffsets label image m s = .ok (b, s1) := by
  intro m
  induction m with
  | zero =>
    intro s _ _
    exact ⟨false, s, rfl⟩
  | succ m ih =>
    intro s hw hh
    obtain ⟨dx, hdx⟩ := uniform_defined (a := 0)
      (b := (s.multi_image.width : Int) - image.width) s.engine (by omega)
    obtain ⟨dy, hdy⟩ := uniform_defined (a := 0)
      (b := (s.multi_image.height : Int) - image.height)
      { s.engine with pos := s.engine.pos + 1 } (by omega)
    simp only [placeOffsets]
    rw [hdx]
    simp only
    rw [hdy]
    simp only
    split
    · exact ⟨_, _, rfl⟩
    · exact ih _ hw hh

theorem acquireLabel_defined (cfg : Config) (filenames : List File) (hne : filenames ≠ []) :
    ∀ (l : Nat) (s : Sample), ∃ b s1, acquireLabel cfg filenames l s = .ok (b, s1) := by
  intro l
  induction l with
  | zero =>
    intro s
    exact ⟨false, s, rfl⟩
  | succ l ih =>
    intro s
    have hlen : 0 < filenames.length := List.length_pos.2 hne
    obtain ⟨index, hindex⟩ := uniform_defined (a := 0)
      (b := (filenames.length : Int) - 1) s.engine (by omega)
    have hrange := uniform_ok hindex
    have hlt : index.toNat < filenames.length := by omega
    simp only [acquireLabel]
    rw [hindex]
    simp only
    rw [List.getElem?_eq_getElem hlt]
    simp only
    cases hcand : candidate cfg s.multi_image filenames[index.toNat] with
    | none => exact ih _
    | some c =>
      obtain ⟨label, image⟩ := c
      have hfit := (candidate_some _ _ _ _ _).1 hcand
      obtain ⟨b, s2, hp⟩ := placeOffsets_defined label image cfg.num_retries.toNat
        { s with engine := { s.engine with pos := s.engine.pos + 1 },
                 candidate_draws := s.candidate_draws + 1 } hfit.2.2.2.1 hfit.2.2.2.2
      simp only
      rw [hp]
      cases b with
      | true => exact ⟨_, _, rfl⟩
      | false => exact ih _

theorem whileLoop_defined (cfg : Config) (filenames : List File) (hne : filenames ≠ [])
    (sequence_length : Int) :
    ∀ (fuel : Nat) (s : Sample), toSizeT sequence_length ≤ s.strings.length + fuel →
      ∃ b s1, whileLoop cfg filenames sequence_length fuel s = .ok (b, s1) := by
  intro fuel
  induction fuel with
  | zero =>
    intro s hle
    simp only [whileLoop]
    rw [if_neg (by omega)]
    exact ⟨_, _, rfl⟩
  | succ fuel ih =>
    intro s hle
    simp only [whileLoop]
    split
    · obtain ⟨b, s1, hr⟩ := acquireLabel_defined cfg filenames hne cfg.num_retries.toNat
        { s with rounds := s.rounds + 1 }
      rw [hr]
      cases b with
      | true =>
        have h2 := acquireLabel_effect cfg filenames _ _ _ _ hr
        have hlen := h2.2.2.2.1 rfl
        simp only at hlen
        exact ih s1 (by omega)
      | false => exact ⟨_, _, rfl⟩
    · exact ⟨_, _, rfl⟩

/-- The run never ends for lack of fuel. -/
theorem makeSample_fuel (cfg : Config) (filenames : List File) (j : Nat) (engine : Engine)
    (memory : Nat → Nat → Pixel) :
    makeSample cfg filenames j engine memory ≠ .error .out_of_fuel := by
  intro h
  unfold makeSample at h
  split at h
  · cases h
  · split at h
    · rename_i f hu
      injection h with h
      subst h
      cases uniform_fault hu
    · split at h
      · rename_i f hw
        injection h with h
        subst h
        exact whileLoop_fuel cfg filenames _ _ _ (by simp) hw
      · cases h

/-- With a corpus that is not empty, `sequence_lengths[0] ≥ 1` and a canvas
without a negative dimension, the run ends with a sample. -/
theorem makeSample_defined (cfg : Config) (filenames : List File) (j : Nat) (engine : Engine)
    (memory : Nat → Nat → Pixel)
    (hne : filenames ≠ []) (hseq : 1 ≤ cfg.sequence_lengths.1) (hw : 0 ≤ cfg.image_width)
    (hh : 0 ≤ cfg.image_height) : ∃ out, makeSample cfg filenames j engine memory = .ok out := by
  obtain ⟨sl, hu⟩ := uniform_defined engine hseq
  obtain ⟨b, s1, hr⟩ := whileLoop_defined cfg filenames hne sl (toSizeT sl)
    ⟨newCanvas cfg memory, [], { engine with pos := engine.pos + 1 }, [], 0, 0, 0⟩ (by simp)
  unfold makeSample
  rw [if_neg (by omega), hu]
  simp only
  rw [hr]
  exact ⟨_, rfl⟩

/-- C9. With a retry budget `R = num_retries ≥ 0`: one offset search makes at
most `R` offset trials; one acquisition round draws at most `R` candidates and
makes at most `R * R` offset trials; the generation of a sample never runs out
of fuel, ends with a sample whenever no library call is outside its contract,
and a sample with target count `t` has run at most `t` rounds, `t * R`
candidate draws and `t * R * R` offset trials. -/
theorem trial_budget (cfg : Config) (filenames : List File) (hR : 0 ≤ cfg.num_retries) :
    (∀ (label : String) (image : Image) (s s1 : Sample) (b : Bool),
        placeOffsets label image cfg.num_retries.toNat s = .ok (b, s1) →
        (s1.offset_trials : Int) ≤ s.offset_trials + cfg.num_retries) ∧
      (∀ (s s1 : Sample) (b : Bool),
        acquireLabel cfg filenames cfg.num_retries.toNat s = .ok (b, s1) →
        (s1.candidate_draws : Int) ≤ s.candidate_draws + cfg.num_retries ∧
          (s1.offset_trials : Int) ≤ s.offset_trials + cfg.num_retries * cfg.num_retries) ∧
      (∀ (j : Nat) (engine : Engine) (memory : Nat → Nat → Pixel),
        makeSample cfg filenames j engine memory ≠ .error .out_of_fuel ∧
        (filenames ≠ [] → 1 ≤ cfg.sequence_lengths.1 → 0 ≤ cfg.image_width →
          0 ≤ cfg.image_height → ∃ out, makeSample cfg filenames j engine memory = .ok out) ∧
        ∀ out, makeSample cfg filenames j engine memory = .ok out →
          (out.final.rounds : Int) ≤ out.sequence_length ∧
            (out.final.candidate_draws : Int) ≤ out.sequence_length * cfg.num_retries ∧
            (out.final.offset_trials : Int) ≤
              out.sequence_length * (cfg.num_retries * cfg.num_retries)) := by
  have hR1 : (cfg.num_retries.toNat : Int) = cfg.num_retries := Int.toNat_of_nonneg hR
  refine ⟨?_, ?_, ?_⟩
  · intro label image s s1 b h
    have h1 := (placeOffsets_effect label image _ _ _ _ h).2.2.1
    omega
  · intro s s1 b h
    have h1 := acquireLabel_effect cfg filenames _ _ _ _ h
    have h2 : ((s1.offset_trials : Nat) : Int) ≤
        ((s.offset_trials + cfg.num_retries.toNat * cfg.num_retries.toNat : Nat) : Int) :=
      Int.ofNat_le.2 h1.2.2.1
    rw [Nat.cast_add, Nat.cast_mul, hR1] at h2
    exact ⟨by omega, h2⟩
  · intro j engine memory
    refine ⟨makeSample_fuel cfg filenames j engine memory,
      fun hne hseq hw hh => makeSample_defined cfg filenames j engine memory hne hseq hw hh, ?_⟩
    intro out h
    obtain ⟨_, _, ⟨e1, hu, hw⟩, _⟩ := makeSample_ok h
    have hrange := uniform_ok hu
    have hT := toSizeT_of_nonneg out.sequence_length (by omega)
    have heff := whileLoop_effect cfg filenames out.sequence_length _ _ _ _ hw (Nat.zero_le _)
    simp only [List.length_nil, Nat.sub_zero, Nat.zero_add, Nat.zero_mul, Nat.add_zero] at heff
    obtain ⟨hfalse, htrue, _, hrounds, hcand, hoff⟩ := heff
    have hr : out.final.rounds ≤ toSizeT out.sequence_length := by
      cases hb : out.broke with
      | false =>
        have := hfalse hb
        rw [hb] at hrounds
        simp only [Bool.false_eq_true, if_false] at hrounds
        omega
      | true =>
        have := htrue hb
        rw [hb] at hrounds
        simp only [if_true] at hrounds
        omega
    have hc2 : out.final.candidate_draws ≤ toSizeT out.sequence_length * cfg.num_retries.toNat :=
      le_trans hcand (Nat.mul_le_mul_right _ hr)
    have ho2 : out.final.offset_trials ≤
        toSizeT out.sequence_length * (cfg.num_retries.toNat * cfg.num_retries.toNat) :=
      le_trans hoff (Nat.mul_le_mul_right _ hr)
    have hc3 := Int.ofNat_le.2 hc2
    have ho3 := Int.ofNat_le.2 ho2
    rw [Nat.cast_mul, hT, hR1] at hc3
    rw [Nat.cast_mul, Nat.cast_mul, hT, hR1] at ho3
    exact ⟨by omega, hc3, ho3⟩

/-- C9 at the demo run: `R = 3`, target 2; two rounds, three candidate draws,
four offset trials. -/
theorem trial_budget_witness :
    (0 : Int) ≤ demoConfig.num_retries ∧
      makeSample demoConfig demoCorpus 7 demoEngine demoMemory = .ok demoOutput ∧
      demoOutput.final.rounds = 2 ∧ demoOutput.final.candidate_draws = 3 ∧
      demoOutput.final.offset_trials = 4 ∧
      (demoOutput.final.rounds : Int) ≤ demoOutput.sequence_length ∧
      (demoOutput.final.candidate_draws : Int) ≤
        demoOutput.sequence_length * demoConfig.num_retries ∧
      (demoOutput.final.offset_trials : Int) ≤
        demoOutput.sequence_length * (demoConfig.num_retries * demoConfig.num_retries) :=
  ⟨by decide, rfl, by decide, by decide, by decide,
    ((trial_budget demoConfig demoCorpus
        (by decide)).2.2 7 demoEngine demoMemory).2.2 demoOutput rfl⟩

/-! ## C10: the content of the canvas -/

/-- C10. In a finalized sample every committed entry has a source image, the
decoded content of a file of the corpus, whose pixel `(u, v)` is the canvas
pixel `(dx + u, dy + v)` for `(dx, dy)` the minimum corner of the entry and
`u`, `v` inside the image; and every canvas pixel that no committed entry
covers is black, whatever the buffer held when it was allocated. -/
theorem canvas_content (cfg : Config) (filenames : List File) (j : Nat)
    (engine : Engine) (memory : Nat → Nat → Pixel) (out : Output)
        (h : makeSample cfg filenames j engine memory = .ok out) :
    (out.final.multi_image.width : Int) = cfg.image_width ∧
      (out.final.multi_image.height : Int) = cfg.image_height ∧
      out.strings.Perm (out.final.placed.map fun p => (p.1, p.2.1)) ∧
      (∀ p ∈ out.final.placed,
        (∃ filename ∈ filenames, filename.content = some p.2.2) ∧
        p.2.1 = boxAt p.2.2 p.2.1.xmin p.2.1.ymin ∧ 0 ≤ p.2.1.xmin ∧ 0 ≤ p.2.1.ymin ∧
        ∀ u v : Nat, u < p.2.2.width → v < p.2.2.height →
          out.final.multi_image.pixel (p.2.1.xmin.toNat + u) (p.2.1.ymin.toNat + v) =
            p.2.2.pixel u v) ∧
      (∀ x y : Nat, (∀ e ∈ out.strings, ¬ e.2.covers x y) →
        out.final.multi_image.pixel x y = black) := by
  have hok := makeSample_ok h
  obtain ⟨hw, hh, hmap, _, hplace, hpix, hblack⟩ := makeSample_inv h
  have hperm : out.strings.Perm out.final.strings := by
    rw [hok.2.2.2.1]
    exact sort_perm _
  refine ⟨?_, ?_, ?_, ?_, ?_⟩
  · rw [hw]
    exact Int.toNat_of_nonneg hok.1
  · rw [hh]
    exact Int.toNat_of_nonneg hok.2.1
  · rw [← hmap]
    exact hperm
  · intro p hp
    obtain ⟨hx, hy, hx0, _, hy0, _, filename, hmem, _, _, hcontent⟩ := hplace p hp
    refine ⟨⟨filename, hmem, hcontent⟩, ?_, hx0, hy0, hpix p hp⟩
    show p.2.1 = ⟨p.2.1.xmin, p.2.1.ymin, p.2.1.xmin + p.2.2.width, p.2.1.ymin + p.2.2.height⟩
    rw [← hx, ← hy]
  · intro x y hfree
    apply hblack x y
    intro p hp
    apply hfree (p.1, p.2.1)
    rw [hperm.mem_iff, hmap]
    exact List.mem_map_of_mem _ hp

/-- C10 at the demo run: the tile of colour 1 at (3, 3), the tile of colour 2
at (0, 0), black at (2, 2), where the buffer was not black before the fill. -/
theorem canvas_content_witness :
    makeSample demoConfig demoCorpus 7 demoEngine demoMemory = .ok demoOutput ∧
      demoMemory 2 2 ≠ black ∧
      demoOutput.final.multi_image.pixel 4 4 = ⟨1, 1, 1⟩ ∧
      demoOutput.final.multi_image.pixel 1 0 = ⟨2, 2, 2⟩ ∧
      demoOutput.final.multi_image.pixel 2 2 = black ∧
      (∀ x y : Nat, (∀ e ∈ demoOutput.strings, ¬ e.2.covers x y) →
        demoOutput.final.multi_image.pixel x y = black) :=
  ⟨rfl, by decide, by decide, by decide, by decide,
    (canvas_content demoConfig demoCorpus 7 demoEngine demoMemory demoOutput rfl).2.2.2.2⟩

/-! ## Single steps of the loops -/

/-- The loop ends without `break` when the target is reached. -/
theorem whileLoop_done (cfg : Config) (filenames : List File) (sequence_length : Int)
    (fuel : Nat) (s : Sample) (h : ¬ s.strings.length < toSizeT sequence_length) :
    whileLoop cfg filenames sequence_length fuel s = .ok (false, s) := by
  cases fuel with
  | zero =>
    simp only [whileLoop]
    rw [if_neg h]
  | succ fuel =>
    simp only [whileLoop]
    rw [if_neg h]

/-- A round that commits is followed by the next test of the loop condition. -/
theorem whileLoop_step (cfg : Config) (filenames : List File) (sequence_length : Int)
    (fuel : Nat) (s s1 : Sample) (h : s.strings.length < toSizeT sequence_length)
    (hr : acquireLabel cfg filenames cfg.num_retries.toNat { s with rounds := s.rounds + 1 } =
      .ok (true, s1)) :
    whileLoop cfg filenames sequence_length (fuel + 1) s =
      whileLoop cfg filenames sequence_length fuel s1 := by
  simp only [whileLoop]
  rw [if_pos h, hr]

/-- A round that fails ends the loop at once, with the variables the round left. -/
theorem whileLoop_break (cfg : Config) (filenames : List File) (sequence_length : Int)
    (fuel : Nat) (s s1 : Sample) (h : s.strings.length < toSizeT sequence_length)
    (hr : acquireLabel cfg filenames cfg.num_retries.toNat { s with rounds := s.rounds + 1 } =
      .ok (false, s1)) :
    whileLoop cfg filenames sequence_length (fuel + 1) s = .ok (true, s1) := by
  simp only [whileLoop]
  rw [if_pos h, hr]

/-- A loop left through `break` ran a last round that failed, from variables
with fewer entries than the target, reached by commits only. -/
theorem whileLoop_broke (cfg : Config) (filenames : List File) (sequence_length : Int)
    (P : Image → List (String × Box) → List (String × Box × Image) → Prop)
    (hstep : ∀ (img : Image) (filename : File) (label : String) (image : Image),
      filename ∈ filenames → candidate cfg img filename = some (label, image) →
      KeptByCommit (fun i st pl => i.width = img.width ∧ i.height = img.height ∧ P i st pl)
        label image) :
    ∀ (fuel : Nat) (s s1 : Sample),
      whileLoop cfg filenames sequence_length fuel s = .ok (true, s1) →
      P s.multi_image s.strings s.placed →
      ∃ s0 : Sample, P s0.multi_image s0.strings s0.placed ∧
        s0.multi_image.width = s.multi_image.width ∧
        s0.multi_image.height = s.multi_image.height ∧
        s0.strings.length < toSizeT sequence_length ∧
        acquireLabel cfg filenames cfg.num_retries.toNat { s0 with rounds := s0.rounds + 1 } =
          .ok (false, s1) := by
  intro fuel
  induction fuel with
  | zero =>
    intro s s1 h _
    simp only [whileLoop] at h
    split at h
    · cases h
    · injection h with h
      injection h with hb _
      cases hb
  | succ fuel ih =>
    intro s s1 h hP
    simp only [whileLoop] at h
    split at h
    · rename_i hlt
      split at h
      · cases h
      · rename_i s2 hr
        have h2 := acquireLabel_inv cfg filenames P hstep _ _ _ _ hr hP
        simp only at h2
        obtain ⟨s0, hP0, hw0, hh0, hlen0, hr0⟩ := ih s2 s1 h h2.2.2
        exact ⟨s0, hP0, by rw [hw0, h2.1], by rw [hh0, h2.2.1], hlen0, hr0⟩
      · rename_i s2 hr
        injection h with h
        injection h with _ hs
        subst hs
        exact ⟨s, hP, rfl, rfl, hlt, hr⟩
    · injection h with h
      injection h with hb _
      cases hb

/-! ## C16: first fit -/

theorem uniform_value {a b v : Int} {e e1 : Engine}
    (h : uniform_int_distribution a b e = .ok (v, e1)) :
    v = a + (e.output e.pos : Int) % (b - a + 1) ∧ e1.output = e.output ∧ e1.pos = e.pos + 1 := by
  unfold uniform_int_distribution at h
  split at h
  · injection h with h
    injection h with hv he
    subst he
    exact ⟨hv.symm, rfl, rfl⟩
  · cases h

theorem trialBox_shift (image : Image) (s s2 : Sample) (k : Nat)
    (himg : s2.multi_image = s.multi_image) (hout : s2.engine.output = s.engine.output)
    (hpos : s2.engine.pos = s.engine.pos + 2) :
    trialBox image s2 k = trialBox image s (k + 1) := by
  have h1 : s.engine.pos + 2 + 2 * k = s.engine.pos + 2 * (k + 1) := by omega
  unfold trialBox
  rw [himg, hout, hpos, h1]

theorem trialFree_shift (image : Image) (s s2 : Sample) (k : Nat)
    (himg : s2.multi_image = s.multi_image) (hstr : s2.strings = s.strings)
    (hout : s2.engine.output = s.engine.output) (hpos : s2.engine.pos = s.engine.pos + 2) :
    trialFree image s2 k = trialFree image s (k + 1) := by
  unfold trialFree
  rw [trialBox_shift image s s2 k himg hout hpos, hstr]

/-- An offset search that commits has committed its first free trial: trial
`k` is free, the trials before it are not, the committed box is the box of
trial `k`, and the search made `k + 1` trials, `2 (k + 1)` draws. -/
theorem placeOffsets_first_fit (label : String) (image : Image) :
    ∀ (m : Nat) (s s1 : Sample), placeOffsets label image m s = .ok (true, s1) →
      ∃ k, k < m ∧ trialFree image s k = true ∧ (∀ i, i < k → trialFree image s i = false) ∧
        s1.strings = s.strings ++ [(label, trialBox image s k)] ∧
        s1.multi_image = copy_pixels image s.multi_image (trialBox image s k).xmin
          (trialBox image s k).ymin ∧
        s1.engine.output = s.engine.output ∧ s1.engine.pos = s.engine.pos + 2 * (k + 1) ∧
        s1.offset_trials = s.offset_trials + (k + 1) ∧
        s1.candidate_draws = s.candidate_draws := by
  intro m
  induction m with
  | zero =>
    intro s s1 h
    simp only [placeOffsets] at h
    injection h with h
    injection h with hb _
    cases hb
  | succ m ih =>
    intro s s1 h
    simp only [placeOffsets] at h
    split at h
    · cases h
    · rename_i dx e1 hdx
      split at h
      · cases h
      · rename_i dy e2 hdy
        obtain ⟨hvx, hox, hpx⟩ := uniform_value hdx
        obtain ⟨hvy, hoy, hpy⟩ := uniform_value hdy
        have hbox : (⟨dx, dy, dx + image.width, dy + image.height⟩ : Box) = trialBox image s 0 := by
          unfold trialBox boxAt
          rw [hvx, hvy, hox, hpx]
          rfl
        rw [hbox] at h
        split at h
        · rename_i hall
          injection h with h
          injection h with _ hs
          subst hs
          refine ⟨0, Nat.succ_pos m, hall, fun i hi => absurd hi (Nat.not_lt_zero i), rfl, ?_,
            by rw [hoy, hox], ?_, rfl, rfl⟩
          · show copy_pixels image s.multi_image dx dy = _
            rw [← hbox]
          · show e2.pos = s.engine.pos + 2 * (0 + 1)
            omega
        · rename_i hall
          obtain ⟨k, hk, hfree, hbefore, hstr, himg, hout, hpos, htr, hcd⟩ := ih _ s1 h
          have hsh := fun i => trialFree_shift image s
            { s with engine := e2, offset_trials := s.offset_trials + 1 } i rfl rfl
            (by show e2.output = s.engine.output; rw [hoy, hox])
            (by show e2.pos = s.engine.pos + 2; omega)
          have hbx := trialBox_shift image s
            { s with engine := e2, offset_trials := s.offset_trials + 1 } k rfl
            (by show e2.output = s.engine.output; rw [hoy, hox])
            (by show e2.pos = s.engine.pos + 2; omega)
          rw [hbx] at hstr himg
          rw [hsh k] at hfree
          refine ⟨k + 1, by omega, hfree, ?_, hstr, himg, ?_, ?_, ?_, hcd⟩
          · intro i hi
            cases i with
            | zero =>
              show (s.strings.all fun string => disjoint string.2 (trialBox image s 0)) = false
              exact Bool.eq_false_iff.2 hall
            | succ i =>
              rw [← hsh i]
              exact hbefore i (by omega)
          · rw [hout]
            show e2.output = s.engine.output
            rw [hoy, hox]
          · rw [hpos]
            show e2.pos + 2 * (k + 1) = s.engine.pos + 2 * (k + 1 + 1)
            omega
          · rw [htr]
            show s.offset_trials + 1 + (k + 1) = s.offset_trials + (k + 1 + 1)
            omega

/-- A round that commits ends with the variables its accepting search left:
after the acceptance it draws no further offset and no further candidate. -/
theorem acquireLabel_accept (cfg : Config) (filenames : List File) :
    ∀ (l : Nat) (s s1 : Sample), acquireLabel cfg filenames l s = .ok (true, s1) →
      ∃ (filename : File) (label : String) (image : Image) (s0 : Sample),
        filename ∈ filenames ∧ candidate cfg s.multi_image filename = some (label, image) ∧
        s0.strings = s.strings ∧ s0.multi_image = s.multi_image ∧ s0.placed = s.placed ∧
        placeOffsets label image cfg.num_retries.toNat s0 = .ok (true, s1) := by
  intro l
  induction l with
  | zero =>
    intro s s1 h
    simp only [acquireLabel] at h
    injection h with h
    injection h with hb _
    cases hb
  | succ l ih =>
    intro s s1 h
    simp only [acquireLabel] at h
    split at h
    · cases h
    · rename_i index e1 hindex
      split at h
      · cases h
      · rename_i filename hfile
        split at h
        · obtain ⟨f, label, image, s0, h1, h2, h3, h4, h5, h6⟩ := ih _ s1 h
          exact ⟨f, label, image, s0, h1, h2, h3, h4, h5, h6⟩
        · rename_i label image hcand
          split at h
          · cases h
          · rename_i s2 hp
            injection h with h
            injection h with _ hs
            subst hs
            exact ⟨filename, label, image,
              { s with engine := e1, candidate_draws := s.candidate_draws + 1 },
              List.getElem?_mem hfile, hcand, rfl, rfl, rfl, hp⟩
          · rename_i s2 hp
            have h2 := (placeOffsets_effect label image _ _ _ _ hp).2.2.2.2 rfl
            simp only at h2
            obtain ⟨f, lab, im, s0, h3, h4, h5, h6, h7, h8⟩ := ih s2 s1 h
            rw [h2.2.1] at h4
            exact ⟨f, lab, im, s0, h3, h4, h5.trans h2.1, h6.trans h2.2.1, h7.trans h2.2.2, h8⟩

/-- On an empty canvas the first drawn offset is accepted. -/
theorem placeOffsets_empty (label : String) (image : Image) (m : Nat) (s : Sample)
    (hnil : s.strings = []) (hw : image.width ≤ s.multi_image.width)
    (hh : image.height ≤ s.multi_image.height) :
    ∃ s1, placeOffsets label image (m + 1) s = .ok (true, s1) ∧
      s1.strings = [(label, trialBox image s 0)] ∧
      s1.multi_image = copy_pixels image s.multi_image (trialBox image s 0).xmin
        (trialBox image s 0).ymin ∧
      s1.offset_trials = s.offset_trials + 1 ∧ s1.engine.pos = s.engine.pos + 2 := by
  obtain ⟨b, s1, hp⟩ := placeOffsets_defined label image (m + 1) s hw hh
  have hfree : trialFree image s 0 = true := by
    unfold trialFree
    rw [hnil]
    rfl
  cases b with
  | true =>
    obtain ⟨k, _, _, hbefore, hstr, himg, _, hpos, htr, _⟩ :=
      placeOffsets_first_fit label image _ _ _ hp
    have hk : k = 0 := by
      cases k with
      | zero => rfl
      | succ k =>
        have := hbefore 0 (Nat.succ_pos k)
        rw [hfree] at this
        cases this
    subst hk
    rw [hnil] at hstr
    exact ⟨s1, hp, hstr, himg, htr, hpos⟩
  | false =>
    exfalso
    simp only [placeOffsets] at hp
    split at hp
    · cases hp
    · rename_i dx e1 hdx
      split at hp
      · cases hp
      · rename_i dy e2 hdy
        rw [hnil] at hp
        simp only [List.all_nil, if_true] at hp
        injection hp with hp
        injection hp with hb _
        cases hb

/-- C16. An offset search that commits has committed the first drawn offset
whose box is disjoint from every committed box: every offset drawn before it
collided, and the search drew nothing after it; a round that commits ends
with the variables that search left, so it draws no further candidate either.
On an empty canvas the first drawn offset is accepted. -/
theorem first_fit (cfg : Config) (filenames : List File) :
    (∀ (label : String) (image : Image) (m : Nat) (s s1 : Sample),
        placeOffsets label image m s = .ok (true, s1) →
        ∃ k, k < m ∧ trialFree image s k = true ∧
          (∀ i, i < k → trialFree image s i = false) ∧
          s1.strings = s.strings ++ [(label, trialBox image s k)] ∧
          s1.multi_image = copy_pixels image s.multi_image (trialBox image s k).xmin
            (trialBox image s k).ymin ∧
          s1.engine.pos = s.engine.pos + 2 * (k + 1) ∧
          s1.offset_trials = s.offset_trials + (k + 1) ∧
          s1.candidate_draws = s.candidate_draws) ∧
      (∀ (l : Nat) (s s1 : Sample), acquireLabel cfg filenames l s = .ok (true, s1) →
        ∃ (label : String) (image : Image) (s0 : Sample),
          s0.strings = s.strings ∧ s0.multi_image = s.multi_image ∧
          placeOffsets label image cfg.num_retries.toNat s0 = .ok (true, s1)) ∧
      (∀ (label : String) (image : Image) (m : Nat) (s : Sample), s.strings = [] →
        image.width ≤ s.multi_image.width → image.height ≤ s.multi_image.height →
        ∃ s1, placeOffsets label image (m + 1) s = .ok (true, s1) ∧
          s1.strings = [(label, trialBox image s 0)] ∧
          s1.offset_trials = s.offset_trials + 1) := by
  refine ⟨?_, ?_, ?_⟩
  · intro label image m s s1 h
    obtain ⟨k, h1, h2, h3, h4, h5, _, h7, h8, h9⟩ := placeOffsets_first_fit label image m s s1 h
    exact ⟨k, h1, h2, h3, h4, h5, h7, h8, h9⟩
  · intro l s s1 h
    obtain ⟨_, label, image, s0, _, _, h3, h4, _, h6⟩ := acquireLabel_accept cfg filenames l s s1 h
    exact ⟨label, image, s0, h3, h4, h6⟩
  · intro label image m s hnil hw hh
    obtain ⟨s1, h1, h2, _, h4, _⟩ := placeOffsets_empty label image m s hnil hw hh
    exact ⟨s1, h1, h2, h4⟩

/-- C16 at the second search of the demo run: the offsets (3, 3) and (2, 2)
collide with `AB`, the third offset (0, 0) is free and is the one committed. -/
theorem first_fit_witness :
    trialBox (tile 2) demoSecondSearch 0 = ⟨3, 3, 5, 5⟩ ∧
      trialBox (tile 2) demoSecondSearch 1 = ⟨2, 2, 4, 4⟩ ∧
      trialBox (tile 2) demoSecondSearch 2 = ⟨0, 0, 2, 2⟩ ∧
      trialFree (tile 2) demoSecondSearch 0 = false ∧
      trialFree (tile 2) demoSecondSearch 1 = false ∧
      trialFree (tile 2) demoSecondSearch 2 = true ∧
      (placeOffsets "C" (tile 2) 3 demoSecondSearch).map (fun r => (r.1, r.2.strings)) =
        .ok (true, [("AB", ⟨3, 3, 5, 5⟩), ("C", ⟨0, 0, 2, 2⟩)]) ∧
      ∃ s1, placeOffsets "C" (tile 2) 3 demoSecondSearch = .ok (true, s1) ∧
        ∃ k, k < 3 ∧ trialFree (tile 2) demoSecondSearch k = true ∧
          (∀ i, i < k → trialFree (tile 2) demoSecondSearch i = false) ∧
          s1.strings = demoSecondSearch.strings ++ [("C", trialBox (tile 2) demoSecondSearch k)] ∧
          s1.multi_image = copy_pixels (tile 2) demoSecondSearch.multi_image
            (trialBox (tile 2) demoSecondSearch k).xmin
            (trialBox (tile 2) demoSecondSearch k).ymin ∧
          s1.engine.pos = demoSecondSearch.engine.pos + 2 * (k + 1) ∧
          s1.offset_trials = demoSecondSearch.offset_trials + (k + 1) ∧
          s1.candidate_draws = demoSecondSearch.candidate_draws :=
  ⟨by decide, by decide, by decide, by decide, by decide, by decide, rfl,
    _, rfl, (first_fit demoConfig demoCorpus).1 "C" (tile 2) 3 demoSecondSearch _ rfl⟩

/-! ## C17: a failed round changes nothing -/

/-- C17. A round that fails leaves entries and canvas as they were; a round
that commits appends one entry to the entries; the loop ends at once after a
failed round, with the variables that round left; so a sample whose loop was
left through `break` has exactly the entries committed before the failed
round, which was its last round. -/
theorem failed_round_atomic (cfg : Config) (filenames : List File) :
    (∀ (l : Nat) (s s1 : Sample), acquireLabel cfg filenames l s = .ok (false, s1) →
        s1.strings = s.strings ∧ s1.multi_image = s.multi_image) ∧
      (∀ (l : Nat) (s s1 : Sample), acquireLabel cfg filenames l s = .ok (true, s1) →
        ∃ e, s1.strings = s.strings ++ [e]) ∧
      (∀ (sequence_length : Int) (fuel : Nat) (s s1 : Sample),
        s.strings.length < toSizeT sequence_length →
        acquireLabel cfg filenames cfg.num_retries.toNat { s with rounds := s.rounds + 1 } =
          .ok (false, s1) →
        whileLoop cfg filenames sequence_length (fuel + 1) s = .ok (true, s1)) ∧
      (∀ (j : Nat) (engine : Engine) (memory : Nat → Nat → Pixel) (out : Output),
        makeSample cfg filenames j engine memory = .ok out → out.broke = true →
        ∃ s0 : Sample,
          acquireLabel cfg filenames cfg.num_retries.toNat { s0 with rounds := s0.rounds + 1 } =
            .ok (false, out.final) ∧
          out.final.strings = s0.strings ∧ out.final.multi_image = s0.multi_image ∧
          out.strings.Perm s0.strings ∧
          out.final.rounds = out.strings.length + 1) := by
  refine ⟨?_, ?_, ?_, ?_⟩
  · intro l s s1 h
    have h1 := (acquireLabel_effect cfg filenames l s s1 false h).2.2.2.2 rfl
    exact ⟨h1.1, h1.2.1⟩
  · intro l s s1 h
    obtain ⟨_, label, image, s0, _, _, hstr, _, _, hp⟩ := acquireLabel_accept cfg filenames l s s1 h
    obtain ⟨k, _, _, _, h4, _⟩ := placeOffsets_first_fit label image _ _ _ hp
    rw [hstr] at h4
    exact ⟨_, h4⟩
  · intro sequence_length fuel s s1 hlt hr
    exact whileLoop_break cfg filenames sequence_length fuel s s1 hlt hr
  · intro j engine memory out h hb
    obtain ⟨_, _, ⟨e1, _, hw⟩, hsort, _⟩ := makeSample_ok h
    rw [hb] at hw
    obtain ⟨s0, _, _, _, _, hr⟩ := whileLoop_broke cfg filenames out.sequence_length
      (fun _ _ _ => True) (fun _ _ _ _ _ _ _ _ _ _ _ h0 _ _ _ _ _ => ⟨h0.1, h0.2.1, trivial⟩)
      _ _ _ hw trivial
    have h1 := (acquireLabel_effect cfg filenames _ _ _ false hr).2.2.2.2 rfl
    simp only at h1
    have heff := (whileLoop_effect cfg filenames out.sequence_length _ _ _ _ hw
      (Nat.zero_le _)).2.2.2.1
    simp only [List.length_nil, Nat.sub_zero, Nat.zero_add, if_true] at heff
    have hlen : out.strings.length = out.final.strings.length := by
      rw [hsort]
      exact (sort_perm _).length_eq
    refine ⟨s0, hr, h1.1, h1.2.1, ?_, ?_⟩
    · rw [hsort, h1.1]
      exact sort_perm _
    · rw [heff, hlen]

/-- C17 at the crowded run: `AB` is committed at (1, 1), the second round
fails, and the sample is finalized with `AB` alone after two rounds. -/
theorem failed_round_atomic_witness :
    makeSample crowdedConfig demoCorpus 7 demoEngine demoMemory = .ok crowdedOutput ∧
      crowdedOutput.broke = true ∧ crowdedOutput.strings = [("AB", ⟨1, 1, 3, 3⟩)] ∧
      crowdedOutput.final.rounds = 2 ∧
      ∃ s0 : Sample,
        acquireLabel crowdedConfig demoCorpus crowdedConfig.num_retries.toNat
            { s0 with rounds := s0.rounds + 1 } = .ok (false, crowdedOutput.final) ∧
          crowdedOutput.final.strings = s0.strings ∧
          crowdedOutput.final.multi_image = s0.multi_image ∧
          crowdedOutput.strings.Perm s0.strings ∧
          crowdedOutput.final.rounds = crowdedOutput.strings.length + 1 :=
  ⟨rfl, by decide, by decide, by decide,
    (failed_round_atomic crowdedConfig demoCorpus).2.2.2 7 demoEngine demoMemory crowdedOutput rfl
      (by decide)⟩

/-! ## Rounds that commit at the first try -/

theorem uniform_eq (a b v : Int) (e : Engine) (hab : a ≤ b)
    (hv : a + (e.output e.pos : Int) % (b - a + 1) = v) :
    uniform_int_distribution a b e = .ok (v, { e with pos := e.pos + 1 }) := by
  unfold uniform_int_distribution
  rw [if_pos hab, hv]

/-- A round whose first drawn file passes the checks and whose first drawn
offset is free commits that file at that offset, after three draws. -/
theorem acquireLabel_first_try (cfg : Config) (filenames : List File) (l : Nat) (s : Sample)
    (filename : File) (label : String) (image : Image) (hR : 1 ≤ cfg.num_retries)
    (hidx : filenames[(0 + (s.engine.output s.engine.pos : Int) %
      ((filenames.length : Int) - 1 - 0 + 1)).toNat]? = some filename)
    (hcand : candidate cfg s.multi_image filename = some (label, image))
    (hfree : trialFree image
      (afterDraw s) 0 = true) :
    ∃ s1, acquireLabel cfg filenames (l + 1) s = .ok (true, s1) ∧
      s1.strings = s.strings ++ [(label, trialBox image
        (afterDraw s) 0)] ∧
      s1.multi_image.width = s.multi_image.width ∧
      s1.multi_image.height = s.multi_image.height ∧
      s1.engine.output = s.engine.output ∧ s1.engine.pos = s.engine.pos + 3 := by
  have hne : filenames ≠ [] := by
    intro hnil
    rw [hnil] at hidx
    cases hidx
  have hlen : 0 < filenames.length := List.length_pos.2 hne
  have hfit := (candidate_some _ _ _ _ _).1 hcand
  obtain ⟨n, hn⟩ : ∃ n, cfg.num_retries.toNat = n + 1 := ⟨cfg.num_retries.toNat - 1, by omega⟩
  obtain ⟨b, s1, hp⟩ := placeOffsets_defined label image (n + 1)
    (afterDraw s) hfit.2.2.2.1 hfit.2.2.2.2
  have hb : b = true := by
    cases b with
    | true => rfl
    | false =>
      exfalso
      simp only [placeOffsets] at hp
      split at hp
      · cases hp
      · rename_i dx e1 hdx
        split at hp
        · cases hp
        · rename_i dy e2 hdy
          obtain ⟨hvx, hox, hpx⟩ := uniform_value hdx
          obtain ⟨hvy, hoy, hpy⟩ := uniform_value hdy
          have hbox : (⟨dx, dy, dx + image.width, dy + image.height⟩ : Box) =
              trialBox image (afterDraw s) 0 := by
            unfold trialBox boxAt
            rw [hvx, hvy, hox, hpx]
            rfl
          rw [hbox] at hp
          unfold trialFree at hfree
          rw [if_pos hfree] at hp
          injection hp with hp
          injection hp with hb _
          cases hb
  subst hb
  obtain ⟨k, _, _, hbefore, hstr, himg, hout, hpos, _, _⟩ :=
    placeOffsets_first_fit label image _ _ _ hp
  have hk : k = 0 := by
    cases k with
    | zero => rfl
    | succ k =>
      have := hbefore 0 (Nat.succ_pos k)
      rw [hfree] at this
      cases this
  subst hk
  refine ⟨s1, ?_, hstr, by rw [himg]; rfl, by rw [himg]; rfl, hout, by rw [hpos]; show _ + 1 + 2 * (0 + 1) = _; omega⟩
  simp only [acquireLabel]
  rw [uniform_eq 0 ((filenames.length : Int) - 1) _ s.engine (by omega) rfl]
  simp only
  rw [hidx]
  simp only
  rw [hcand]
  simp only
  rw [hn]
  rw [show placeOffsets label image (n + 1)
    ⟨s.multi_image, s.strings, ⟨s.engine.output, s.engine.pos + 1⟩, s.placed,
      s.candidate_draws + 1, s.offset_trials, s.rounds⟩ = .ok (true, s1) from hp]

/-! ## C11: a corpus of one image labelled `AB` -/

/-- C11, counterexample. With `num_retries = 0` the outer loop does not run: the
round fails at once, the sample has no label and its file is `7.jpg`, not
`7_AB.jpg`. -/
theorem no_retry_no_label :
    makeSample noRetryConfig singleCorpus 7 demoEngine demoMemory = .ok noRetryOutput ∧
      regex_match "1_AB_x" = some "AB" ∧ noRetryConfig.sequence_lengths = (1, 5) ∧
      noRetryOutput.strings = [] ∧ noRetryOutput.path = "out/7.jpg" ∧
      noRetryOutput.path ≠ "out/7_AB.jpg" :=
  ⟨rfl, by decide, rfl, by decide, by decide, by decide⟩

/-- C11, amended. With `num_retries ≥ 1`, `sequence_lengths = (1, 5)` and a
corpus of one file that decodes, has the label `AB` and is not larger than the
canvas, every sample has the one label `AB` and the file of index `j` is
`output_directory/j_AB.jpg`, for every engine. -/
theorem single_label_sample (cfg : Config) (filename : File) (image : Image) (j : Nat)
    (engine : Engine) (memory : Nat → Nat → Pixel) (hseq : cfg.sequence_lengths = (1, 5))
    (hstem : regex_match filename.stem = some "AB") (hdec : filename.content = some image)
    (hw : (image.width : Int) ≤ cfg.image_width) (hh : (image.height : Int) ≤ cfg.image_height)
    (hR : 1 ≤ cfg.num_retries) :
    ∃ out, makeSample cfg [filename] j engine memory = .ok out ∧
      out.strings.map Prod.fst = ["AB"] ∧
      out.path = cfg.output_directory ++ "/" ++ toString j ++ "_AB.jpg" := by
  have h1 : cfg.sequence_lengths.1 = 1 := by rw [hseq]
  have h2 : cfg.sequence_lengths.2 = 5 := by rw [hseq]
  have hcand : candidate cfg (newCanvas cfg memory) filename = some ("AB", image) := by
    rw [candidate_some]
    refine ⟨hstem, ?_, hdec, ?_, ?_⟩
    · rw [h2]
      decide
    · show image.width ≤ cfg.image_width.toNat
      omega
    · show image.height ≤ cfg.image_height.toNat
      omega
  obtain ⟨n, hn⟩ : ∃ n, cfg.num_retries.toNat = n + 1 := ⟨cfg.num_retries.toNat - 1, by omega⟩
  obtain ⟨s1, hacq, hstr, _⟩ := acquireLabel_first_try cfg [filename] n
    ⟨newCanvas cfg memory, [], ⟨engine.output, engine.pos + 1⟩, [], 0, 0, 0 + 1⟩ filename "AB" image hR
    (by simp) hcand rfl
  rw [← hn] at hacq
  have hloop : whileLoop cfg [filename] 1 (toSizeT 1)
      ⟨newCanvas cfg memory, [], ⟨engine.output, engine.pos + 1⟩, [], 0, 0, 0⟩ = .ok (false, s1) := by
    have hT : toSizeT 1 = 1 := by decide
    show whileLoop cfg [filename] 1 (0 + 1) _ = _
    rw [whileLoop_step cfg [filename] 1 0 _ s1 (by rw [hT]; exact Nat.zero_lt_one) hacq]
    apply whileLoop_done
    rw [hstr, hT]
    simp
  unfold makeSample
  rw [if_neg (by omega), uniform_eq 1 cfg.sequence_lengths.1 1 engine (by omega) (by rw [h1]; simp)]
  simp only
  rw [hloop]
  refine ⟨_, rfl, ?_, ?_⟩
  · show (sort s1.strings).map Prod.fst = ["AB"]
    rw [hstr]
    rfl
  · show cfg.output_directory ++ "/" ++ accumulate (sort s1.strings) j ++ ".jpg" = _
    rw [hstr]
    show cfg.output_directory ++ "/" ++ (toString j ++ "_" ++ "AB") ++ ".jpg" = _
    apply String.ext
    simp [String.data_append, List.append_assoc]

/-- C11 (amended) at `singleConfig` and `singleCorpus`: the file is `out/7_AB.jpg`. -/
theorem single_label_sample_witness :
    ∃ out, makeSample singleConfig singleCorpus 7 demoEngine demoMemory = .ok out ∧
      out.strings.map Prod.fst = ["AB"] ∧
      out.path = singleConfig.output_directory ++ "/" ++ toString 7 ++ "_AB.jpg" :=
  single_label_sample singleConfig ⟨"1_AB_x", some (tile 1)⟩ (tile 1) 7 demoEngine demoMemory rfl
    (by decide) rfl (by decide) (by decide) (by decide)

/-! ## C12: a corpus of images larger than the canvas -/

/-- C12. When every image of the corpus is wider or higher than the canvas,
every sample is finalized without a label: its stem is the decimal index, its
file is `output_directory/j.jpg`, and every pixel of its canvas is black,
whatever the buffer held when it was allocated.  A
sample is produced whenever the corpus is not empty, `sequence_lengths[0] ≥ 1`
and the canvas has no negative dimension. -/
theorem oversize_corpus (cfg : Config) (filenames : List File) (j : Nat) (engine : Engine)
    (memory : Nat → Nat → Pixel)
    (hbig : ∀ f ∈ filenames, ∀ image, f.content = some image →
      cfg.image_width < image.width ∨ cfg.image_height < image.height) :
    (∀ out, makeSample cfg filenames j engine memory = .ok out →
        out.strings = [] ∧ out.final.strings = [] ∧ out.stem = toString j ∧
        out.path = cfg.output_directory ++ "/" ++ toString j ++ ".jpg" ∧
        ∀ x y : Nat, out.final.multi_image.pixel x y = black) ∧
      (filenames ≠ [] → 1 ≤ cfg.sequence_lengths.1 → 0 ≤ cfg.image_width →
        0 ≤ cfg.image_height → ∃ out, makeSample cfg filenames j engine memory = .ok out) := by
  refine ⟨?_, fun hne hseq hw hh =>
    makeSample_defined cfg filenames j engine memory hne hseq hw hh⟩
  intro out h
  obtain ⟨hw0, hh0, ⟨e1, _, hw⟩, hsort, hstem, hpath⟩ := makeSample_ok h
  have hkeep := whileLoop_inv cfg filenames out.sequence_length
    (fun i st _ => i = newCanvas cfg memory ∧ st = [])
    (by
      intro img filename label image hmem hcand img1 strings placed dx dy hP
      exfalso
      obtain ⟨hw1, hh1, himg, _⟩ := hP
      have hfit := (candidate_some _ _ _ _ _).1 hcand
      rw [himg] at hw1 hh1
      have hw2 : img.width = cfg.image_width.toNat := hw1.symm
      have hh2 : img.height = cfg.image_height.toNat := hh1.symm
      have := hbig filename hmem image hfit.2.2.1
      omega)
    _ _ _ _ hw ⟨rfl, rfl⟩
  obtain ⟨_, _, himg, hnil⟩ := hkeep
  have hs : out.strings = [] := by
    rw [hsort, hnil]
    rfl
  refine ⟨hs, hnil, ?_, ?_, ?_⟩
  · rw [hstem, hs]
    rfl
  · rw [hpath, hstem, hs]
    rfl
  · intro x y
    rw [himg]
    rfl

/-- C12 at `demoConfig` and a corpus of a 7 x 2 and a 2 x 9 image. -/
theorem oversize_corpus_witness :
    makeSample demoConfig oversizeCorpus 7 demoEngine demoMemory = .ok oversizeOutput ∧
      oversizeOutput.strings = [] ∧ oversizeOutput.path = "out/7.jpg" ∧
      oversizeOutput.final.candidate_draws = 3 ∧ demoMemory 0 0 ≠ black ∧
      ∀ x y : Nat, oversizeOutput.final.multi_image.pixel x y = black :=
  ⟨rfl, by decide, by decide, by decide, by decide,
    ((oversize_corpus demoConfig oversizeCorpus 7 demoEngine demoMemory (by
      intro f hf image hc
      simp only [oversizeCorpus, List.mem_cons, List.mem_singleton, List.not_mem_nil,
        or_false] at hf
      rcases hf with hf | hf
      · subst hf
        injection hc with hc
        subst hc
        exact Or.inl (by decide)
      · subst hf
        injection hc with hc
        subst hc
        exact Or.inr (by decide))).1 oversizeOutput rfl).2.2.2.2⟩

/-! ## C14: the disjointness test -/

theorem disjoint_eq_true (a b : Box) :
    disjoint a b = true ↔
      a.xmax < b.xmin ∨ b.xmax < a.xmin ∨ a.ymax < b.ymin ∨ b.ymax < a.ymin := by
  unfold disjoint
  simp only [Bool.or_eq_true, decide_eq_true_eq]
  omega

/-- A sample has at most one entry when no two images of the corpus fit side by
side or one above the other with a gap: the canvas is at most as wide as two
widths and at most as high as two heights. -/
theorem no_room_one_entry (cfg : Config) (filenames : List File) (j : Nat) (engine : Engine)
    (memory : Nat → Nat → Pixel)
    (out : Output) (h : makeSample cfg filenames j engine memory = .ok out)
    (hroom : ∀ f ∈ filenames, ∀ g ∈ filenames, ∀ a b : Image, f.content = some a →
      g.content = some b →
      cfg.image_width ≤ (a.width : Int) + b.width ∧ cfg.image_height ≤ (a.height : Int) + b.height) :
    out.strings.length ≤ 1 := by
  have hok := makeSample_ok h
  obtain ⟨_, _, hmap, hpair, hplace, _⟩ := makeSample_inv h
  have hlen : out.strings.length = out.final.placed.length := by
    rw [hok.2.2.2.1, (sort_perm _).length_eq, hmap, List.length_map]
  rw [hlen]
  have hW := Int.toNat_of_nonneg hok.1
  have hH := Int.toNat_of_nonneg hok.2.1
  cases hpl : out.final.placed with
  | nil => exact Nat.zero_le _
  | cons p rest =>
    cases rest with
    | nil => exact Nat.le_refl _
    | cons q rest =>
      exfalso
      rw [hpl] at hpair hplace
      have hd : disjoint p.2.1 q.2.1 = true :=
        (List.pairwise_cons.1 hpair).1 q (List.mem_cons_self _ _)
      obtain ⟨hpx, hpy, hpx0, hpx1, hpy0, hpy1, f, hf, _, _, hfc⟩ :=
        hplace p (List.mem_cons_self _ _)
      obtain ⟨hqx, hqy, hqx0, hqx1, hqy0, hqy1, g, hg, _, _, hgc⟩ :=
        hplace q (List.mem_cons_of_mem _ (List.mem_cons_self _ _))
      have hr := hroom f hf g hg _ _ hfc hgc
      rw [disjoint_eq_true] at hd
      omega

/-- C14, counterexample. The boxes `[0, 2] x [0, 2]` and `[2, 4] x [0, 2]` share an edge
only, and the test does not call them disjoint; on a canvas of 4 x 2 no run
commits two 2 x 2 images. -/
theorem edge_sharing_not_disjoint :
    disjoint ⟨0, 0, 2, 2⟩ ⟨2, 0, 4, 2⟩ = false ∧
      (⟨0, 0, 2, 2⟩ : Box).xmax ≤ (⟨2, 0, 4, 2⟩ : Box).xmin ∧
      ¬ ∃ (engine : Engine) (memory : Nat → Nat → Pixel) (out : Output),
        makeSample edgeConfig edgeCorpus 7 engine memory = .ok out ∧ out.strings.length = 2 :=
  ⟨by decide, by decide, fun ⟨engine, memory, out, h, hlen⟩ => by
    have h1 := no_room_one_entry edgeConfig edgeCorpus 7 engine memory out h (by
      intro f hf g hg a b hfa hgb
      simp only [edgeCorpus, List.mem_cons, List.mem_singleton, List.not_mem_nil,
        or_false] at hf hg
      rcases hf with hf | hf <;> rcases hg with hg | hg <;> subst hf <;> subst hg <;>
        injection hfa with hfa <;> injection hgb with hgb <;> subst hfa <;> subst hgb <;>
        exact ⟨by decide, by decide⟩)
    omega⟩

/-- C14, amended. The test returns true exactly when
`A.x_max < B.x_min` or `B.x_max < A.x_min` or `A.y_max < B.y_min` or `B.y_max < A.y_min`;
boxes that share an edge are not disjoint, and two distinct entries of a
sample are always separated in this strict sense. -/
theorem disjoint_test :
    (∀ a b : Box, disjoint a b = true ↔
        a.xmax < b.xmin ∨ b.xmax < a.xmin ∨ a.ymax < b.ymin ∨ b.ymax < a.ymin) ∧
      (∀ a b : Box, a.xmax = b.xmin → a.xmin ≤ a.xmax → b.xmin ≤ b.xmax →
        a.ymin ≤ b.ymax → b.ymin ≤ a.ymax → disjoint a b = false) ∧
      (∀ (cfg : Config) (filenames : List File) (j : Nat) (engine : Engine)
          (memory : Nat → Nat → Pixel) (out : Output),
        makeSample cfg filenames j engine memory = .ok out →
        ∀ (i k : Nat) (hi : i < out.strings.length) (hk : k < out.strings.length), i ≠ k →
          (out.strings[i]).2.xmax < (out.strings[k]).2.xmin ∨
          (out.strings[k]).2.xmax < (out.strings[i]).2.xmin ∨
          (out.strings[i]).2.ymax < (out.strings[k]).2.ymin ∨
          (out.strings[k]).2.ymax < (out.strings[i]).2.ymin) := by
  refine ⟨disjoint_eq_true, ?_, ?_⟩
  · intro a b h1 h2 h3 h4 h5
    rw [← Bool.not_eq_true, disjoint_eq_true]
    omega
  · intro cfg filenames j engine memory out h i k hi hk hne
    have hsorted : out.strings.Pairwise (fun a b => disjoint a.2 b.2 = true) := by
      rw [(makeSample_ok h).2.2.2.1]
      exact ((sort_perm _).pairwise_iff (fun hab => disjoint_symm hab)).2
        (Inv_strings_pairwise (makeSample_inv h))
    rcases Nat.lt_or_gt_of_ne hne with hlt | hgt
    · exact (disjoint_eq_true _ _).1 (List.pairwise_iff_getElem.1 hsorted i k hi hk hlt)
    · have := (disjoint_eq_true _ _).1 (List.pairwise_iff_getElem.1 hsorted k i hk hi hgt)
      omega

/-- C14 (amended) at the demo run: `C` at `[0, 2] x [0, 2]` and `AB` at
`[3, 5] x [3, 5]`, with `2 < 3`. -/
theorem disjoint_test_witness :
    makeSample demoConfig demoCorpus 7 demoEngine demoMemory = .ok demoOutput ∧
      demoOutput.strings = [("C", ⟨0, 0, 2, 2⟩), ("AB", ⟨3, 3, 5, 5⟩)] ∧
      disjoint ⟨0, 0, 2, 2⟩ ⟨3, 3, 5, 5⟩ = true ∧
      ∀ (i k : Nat) (hi : i < demoOutput.strings.length) (hk : k < demoOutput.strings.length),
        i ≠ k →
          (demoOutput.strings[i]).2.xmax < (demoOutput.strings[k]).2.xmin ∨
          (demoOutput.strings[k]).2.xmax < (demoOutput.strings[i]).2.xmin ∨
          (demoOutput.strings[i]).2.ymax < (demoOutput.strings[k]).2.ymin ∨
          (demoOutput.strings[k]).2.ymax < (demoOutput.strings[i]).2.ymin :=
  ⟨rfl, by decide, by decide,
    disjoint_test.2.2 demoConfig demoCorpus 7 demoEngine demoMemory demoOutput rfl⟩

/-! ## C13: two images of half the canvas height -/

/-- C13, counterexample. Two 4 x 2 images on a 4 x 4 canvas are as wide as the
canvas and exactly half as high, and `num_retries = 2`; no sequence of draws
places both, since boxes one above the other share an edge. -/
theorem half_height_full_width :
    halfConfig.image_height = 2 * 2 ∧ (4 : Int) ≤ halfConfig.image_width ∧
      2 ≤ halfConfig.num_retries ∧
      ¬ ∃ (engine : Engine) (memory : Nat → Nat → Pixel) (out : Output),
        makeSample halfConfig halfCorpus 7 engine memory = .ok out ∧ out.strings.length = 2 :=
  ⟨by decide, by decide, by decide, fun ⟨engine, memory, out, h, hlen⟩ => by
    have h1 := no_room_one_entry halfConfig halfCorpus 7 engine memory out h (by
      intro f hf g hg a b hfa hgb
      simp only [halfCorpus, List.mem_cons, List.mem_singleton, List.not_mem_nil,
        or_false] at hf hg
      rcases hf with hf | hf <;> rcases hg with hg | hg <;> subst hf <;> subst hg <;>
        injection hfa with hfa <;> injection hgb with hgb <;> subst hfa <;> subst hgb <;>
        exact ⟨by decide, by decide⟩)
    omega⟩

/-- The run of `sideBySide`: both files are committed, at (0, 0) and at
(`w` + 1, 0). -/
theorem sideBySide_places_both (cfg : Config) (f1 f2 : File) (l1 l2 : String)
    (image1 image2 : Image) (j : Nat) (memory : Nat → Nat → Pixel)
    (hs1 : regex_match f1.stem = some l1) (hs2 : regex_match f2.stem = some l2)
    (hl1 : l1.length ≤ toSizeT cfg.sequence_lengths.2)
    (hl2 : l2.length ≤ toSizeT cfg.sequence_lengths.2)
    (hc1 : f1.content = some image1) (hc2 : f2.content = some image2)
    (hsw : image2.width = image1.width) (hsh : image2.height = image1.height)
    (hh : (image1.height : Int) ≤ cfg.image_height)
    (hroom : 2 * (image1.width : Int) < cfg.image_width)
    (hR : 1 ≤ cfg.num_retries) (hseq : 2 ≤ cfg.sequence_lengths.1) :
    ∃ out, makeSample cfg [f1, f2] j (sideBySide image1.width) memory = .ok out ∧
      out.sequence_length = 2 ∧
      out.final.strings = [(l1, boxAt image1 0 0), (l2, boxAt image2 (image1.width + 1) 0)] := by
  have hW := Int.toNat_of_nonneg (show 0 ≤ cfg.image_width by omega)
  have hH := Int.toNat_of_nonneg (show 0 ≤ cfg.image_height by omega)
  obtain ⟨n, hn⟩ : ∃ n, cfg.num_retries.toNat = n + 1 := ⟨cfg.num_retries.toNat - 1, by omega⟩
  have hT : toSizeT 2 = 2 := by decide
  have hu : uniform_int_distribution 1 cfg.sequence_lengths.1 (sideBySide image1.width) =
      .ok (2, ⟨(sideBySide image1.width).output, 0 + 1⟩) := by
    apply uniform_eq 1 cfg.sequence_lengths.1 2 _ (by omega)
    show 1 + ((1 : Nat) : Int) % (cfg.sequence_lengths.1 - 1 + 1) = 2
    rw [Int.emod_eq_of_lt (by decide) (by omega)]
    rfl
  -- first round
  have hcand1 : candidate cfg (newCanvas cfg memory) f1 = some (l1, image1) := by
    rw [candidate_some]
    exact ⟨hs1, hl1, hc1, by show image1.width ≤ cfg.image_width.toNat; omega,
      by show image1.height ≤ cfg.image_height.toNat; omega⟩
  obtain ⟨s1, hacq1, hstr1, hw1, hh1, hout1, hpos1⟩ := acquireLabel_first_try cfg [f1, f2] n
    ⟨newCanvas cfg memory, [], ⟨(sideBySide image1.width).output, 0 + 1⟩, [], 0, 0, 0 + 1⟩
    f1 l1 image1 hR rfl hcand1 rfl
  have hbox1 : trialBox image1 (afterDraw
      ⟨newCanvas cfg memory, [], ⟨(sideBySide image1.width).output, 0 + 1⟩, [], 0, 0, 0 + 1⟩) 0 =
      boxAt image1 0 0 := by
    show boxAt image1 (0 + ((0 : Nat) : Int) % _) (0 + ((0 : Nat) : Int) % _) = _
    simp
  rw [hbox1] at hstr1
  simp only [List.nil_append] at hstr1
  have hw1 : s1.multi_image.width = cfg.image_width.toNat := hw1
  have hh1 : s1.multi_image.height = cfg.image_height.toNat := hh1
  have hpos1 : s1.engine.pos = 4 := hpos1
  -- second round
  have hcand2 : candidate cfg s1.multi_image f2 = some (l2, image2) := by
    rw [candidate_some]
    exact ⟨hs2, hl2, hc2, by omega, by omega⟩
  have hidx2 : [f1, f2][(0 + (s1.engine.output s1.engine.pos : Int) %
      ((([f1, f2] : List File).length : Int) - 1 - 0 + 1)).toNat]? = some f2 := by
    rw [hout1, hpos1]
    rfl
  have hbox2 : trialBox image2 (afterDraw { s1 with rounds := s1.rounds + 1 }) 0 =
      boxAt image2 (image1.width + 1) 0 := by
    show boxAt image2
      (0 + (s1.engine.output (s1.engine.pos + 1 + 2 * 0) : Int) %
        ((s1.multi_image.width : Int) - image2.width - 0 + 1))
      (0 + (s1.engine.output (s1.engine.pos + 1 + 2 * 0 + 1) : Int) %
        ((s1.multi_image.height : Int) - image2.height - 0 + 1)) = _
    rw [hout1, hpos1, hw1, hh1]
    show boxAt image2 (0 + ((image1.width + 1 : Nat) : Int) % _) (0 + ((0 : Nat) : Int) % _) = _
    rw [Int.emod_eq_of_lt (by omega) (by omega)]
    simp
  have hfree2 : trialFree image2 (afterDraw { s1 with rounds := s1.rounds + 1 }) 0 = true := by
    unfold trialFree
    rw [hbox2]
    show (s1.strings.all fun string => disjoint string.2 (boxAt image2 (image1.width + 1) 0)) = true
    rw [hstr1]
    simp only [List.all_cons, List.all_nil, Bool.and_true]
    rw [disjoint_eq_true]
    left
    show (0 : Int) + image1.width < image1.width + 1
    omega
  obtain ⟨s2, hacq2, hstr2, _⟩ := acquireLabel_first_try cfg [f1, f2] n
    { s1 with rounds := s1.rounds + 1 } f2 l2 image2 hR hidx2 hcand2 hfree2
  rw [hbox2] at hstr2
  have hstr2 : s2.strings = s1.strings ++ [(l2, boxAt image2 (image1.width + 1) 0)] := hstr2
  rw [hstr1] at hstr2
  rw [← hn] at hacq1 hacq2
  have hloop : whileLoop cfg [f1, f2] 2 (toSizeT 2)
      ⟨newCanvas cfg memory, [], ⟨(sideBySide image1.width).output, 0 + 1⟩, [], 0, 0, 0⟩ =
      .ok (false, s2) := by
    rw [hT]
    show whileLoop cfg [f1, f2] 2 (1 + 1) _ = _
    rw [whileLoop_step cfg [f1, f2] 2 1 _ s1 (by rw [hT]; exact Nat.zero_lt_two) hacq1]
    show whileLoop cfg [f1, f2] 2 (0 + 1) _ = _
    rw [whileLoop_step cfg [f1, f2] 2 0 s1 s2 (by rw [hT, hstr1]; exact Nat.one_lt_two) hacq2]
    apply whileLoop_done
    rw [hT, hstr2]
    simp
  unfold makeSample
  rw [if_neg (by omega), hu]
  simp only
  rw [hloop]
  exact ⟨_, rfl, rfl, hstr2⟩

/-- C13, amended. For two decodable images of the same size `w` x `h` with
`2 h` the canvas height and `w` at most the canvas width, both with matching
stems and labels within the bound, with `num_retries ≥ 2` and a target count
of 2 allowed: some sequence of draws gives a sample of target 2 with both
committed exactly when `2 w` is less than the canvas width. -/
theorem half_height_pair (cfg : Config) (f1 f2 : File) (l1 l2 : String)
    (image1 image2 : Image) (j : Nat) (memory : Nat → Nat → Pixel)
    (hs1 : regex_match f1.stem = some l1) (hs2 : regex_match f2.stem = some l2)
    (hl1 : l1.length ≤ toSizeT cfg.sequence_lengths.2)
    (hl2 : l2.length ≤ toSizeT cfg.sequence_lengths.2)
    (hc1 : f1.content = some image1) (hc2 : f2.content = some image2)
    (hsw : image2.width = image1.width) (hsh : image2.height = image1.height)
    (hhalf : 2 * (image1.height : Int) = cfg.image_height)
    (_hw : (image1.width : Int) ≤ cfg.image_width)
    (hR : 2 ≤ cfg.num_retries) (hseq : 2 ≤ cfg.sequence_lengths.1) :
    (∃ (engine : Engine) (out : Output), makeSample cfg [f1, f2] j engine memory = .ok out ∧
        out.sequence_length = 2 ∧ out.strings.length = 2 ∧
        out.strings.Pairwise (fun a b => ∀ x y : Int, ¬ (a.2.covers x y ∧ b.2.covers x y))) ↔
      2 * (image1.width : Int) < cfg.image_width := by
  constructor
  · rintro ⟨engine, out, h, _, hlen, _⟩
    by_contra hno
    have h1 := no_room_one_entry cfg [f1, f2] j engine memory out h (by
      intro f hf g hg a b hfa hgb
      simp only [List.mem_cons, List.mem_singleton, List.not_mem_nil, or_false] at hf hg
      have ha : a.width = image1.width ∧ a.height = image1.height := by
        rcases hf with hf | hf
        · rw [hf, hc1] at hfa
          injection hfa with hfa
          rw [← hfa]
          exact ⟨rfl, rfl⟩
        · rw [hf, hc2] at hfa
          injection hfa with hfa
          rw [← hfa]
          exact ⟨hsw, hsh⟩
      have hb : b.width = image1.width ∧ b.height = image1.height := by
        rcases hg with hg | hg
        · rw [hg, hc1] at hgb
          injection hgb with hgb
          rw [← hgb]
          exact ⟨rfl, rfl⟩
        · rw [hg, hc2] at hgb
          injection hgb with hgb
          rw [← hgb]
          exact ⟨hsw, hsh⟩
      omega)
    omega
  · intro hroom
    obtain ⟨out, h, hsl, hstr⟩ := sideBySide_places_both cfg f1 f2 l1 l2 image1 image2 j memory
      hs1 hs2 hl1 hl2 hc1 hc2 hsw hsh (by omega) hroom (by omega) hseq
    have hlen : out.strings.length = 2 := by
      rw [(makeSample_ok h).2.2.2.1, (sort_perm _).length_eq, hstr]
      rfl
    refine ⟨sideBySide image1.width, out, h, hsl, hlen, ?_⟩
    have hsorted : out.strings.Pairwise (fun a b => disjoint a.2 b.2 = true) := by
      rw [(makeSample_ok h).2.2.2.1]
      exact ((sort_perm _).pairwise_iff (fun hab => disjoint_symm hab)).2
        (Inv_strings_pairwise (makeSample_inv h))
    exact hsorted.imp (fun hd x y hboth => disjoint_covers hd x y hboth.1 hboth.2)

/-- C13 (amended) at two 2 x 3 images on the 6 x 6 canvas of `demoConfig`. -/
theorem half_height_pair_witness :
    ∃ (engine : Engine) (out : Output),
      makeSample demoConfig narrowCorpus 7 engine demoMemory = .ok out ∧
      out.sequence_length = 2 ∧ out.strings.length = 2 ∧
      out.strings.Pairwise (fun a b => ∀ x y : Int, ¬ (a.2.covers x y ∧ b.2.covers x y)) :=
  (half_height_pair demoConfig ⟨"1_AB_x", some (plain 2 3 1)⟩ ⟨"2_C_y", some (plain 2 3 2)⟩
    "AB" "C" (plain 2 3 1) (plain 2 3 2) 7 demoMemory (by decide) (by decide) (by decide) (by decide)
    rfl rfl rfl rfl (by decide) (by decide) (by decide) (by decide)).2 (by decide)

/-! ## C15: the engine of the threads -/

/-- C15, failing input. With `num_data = 2` on two threads, thread 0 makes the
sample 0 and thread 1 the sample 1, and both draw from the one engine of
`main`: in the schedule where thread 0 runs first, the sample of thread 1
starts at the draw number 12 that thread 0 left and is `1_AB`, while from the
engine as `main` created it the same sample would be `1_C_AB`. -/
theorem engine_shared_between_threads :
    schedule twoSamplesConfig.num_data 2 = .ok [[0], [1]] ∧
      (mainInOrder twoSamplesConfig demoCorpus 2 demoEngine fun _ => demoMemory).map
          (fun r => r.1.map (List.map fun out => (out.stem, out.final.engine.pos))) =
        .ok [[("0_C_AB", 12)], [("1_AB", 16)]] ∧
      (makeSample twoSamplesConfig demoCorpus 1 demoEngine demoMemory).map
          (fun out => (out.stem, out.final.engine.pos)) = .ok ("1_C_AB", 12) :=
  ⟨rfl, rfl, rfl⟩

/-! ## C18: the label the pattern extracts -/

theorem star_none {α : Type} (p : Char → Bool) (k : List Char → List Char → Option α) :
    ∀ (input taken : List Char), star p k taken input = none →
      ∀ pre rest, input = pre ++ rest → (∀ c ∈ pre, p c = true) →
        k (pre.reverse ++ taken) rest = none := by
  intro input
  induction input with
  | nil =>
    intro taken h pre rest hsplit _
    have h1 := List.append_eq_nil.1 hsplit.symm
    rw [h1.1, h1.2]
    exact h
  | cons c cs ih =>
    intro taken h pre rest hsplit hall
    simp only [star] at h
    cases pre with
    | nil =>
      rw [List.nil_append] at hsplit
      rw [← hsplit]
      split at h
      · split at h
        · cases h
        · exact h
      · exact h
    | cons d pre =>
      rw [List.cons_append] at hsplit
      injection hsplit with hd hcs
      subst hd
      have hpc : p c = true := hall c (List.mem_cons_self _ _)
      rw [if_pos hpc] at h
      split at h
      · cases h
      · rename_i hs
        have := ih (c :: taken) hs pre rest hcs (fun x hx => hall x (List.mem_cons_of_mem _ hx))
        rw [List.reverse_cons, List.append_assoc]
        exact this

theorem star_some_longest {α : Type} (p : Char → Bool)
    (k : List Char → List Char → Option α) :
    ∀ (input taken : List Char) (r : α), star p k taken input = some r →
      ∃ pre rest, input = pre ++ rest ∧ (∀ c ∈ pre, p c = true) ∧
        k (pre.reverse ++ taken) rest = some r ∧
        ∀ pre1 rest1, input = pre1 ++ rest1 → (∀ c ∈ pre1, p c = true) →
          pre.length < pre1.length → k (pre1.reverse ++ taken) rest1 = none := by
  intro input
  induction input with
  | nil =>
    intro taken r h
    refine ⟨[], [], rfl, fun _ hc => absurd hc (List.not_mem_nil _), h, ?_⟩
    intro pre1 rest1 hsplit _ hlen
    have h1 := List.append_eq_nil.1 hsplit.symm
    rw [h1.1] at hlen
    exact absurd hlen (Nat.lt_irrefl _)
  | cons c cs ih =>
    intro taken r h
    simp only [star] at h
    split at h
    · rename_i hpc
      split at h
      · rename_i r1 hs
        injection h with h
        subst h
        obtain ⟨pre, rest, hcs, hall, hk, hlong⟩ := ih _ _ hs
        refine ⟨c :: pre, rest, by rw [hcs]; rfl, ?_, ?_, ?_⟩
        · intro d hd
          rcases List.mem_cons.1 hd with hd | hd
          · rw [hd]
            exact hpc
          · exact hall d hd
        · rw [List.reverse_cons, List.append_assoc]
          exact hk
        · intro pre1 rest1 hsplit hall1 hlen
          cases pre1 with
          | nil => exact absurd hlen (Nat.not_lt_zero _)
          | cons d pre1 =>
            rw [List.cons_append] at hsplit
            injection hsplit with hd hcs1
            subst hd
            have := hlong pre1 rest1 hcs1 (fun x hx => hall1 x (List.mem_cons_of_mem _ hx))
              (by simpa using hlen)
            rw [List.reverse_cons, List.append_assoc]
            exact this
      · rename_i hs
        refine ⟨[], c :: cs, rfl, fun _ hc => absurd hc (List.not_mem_nil _), h, ?_⟩
        intro pre1 rest1 hsplit hall1 hlen
        cases pre1 with
        | nil => exact absurd hlen (Nat.lt_irrefl _)
        | cons d pre1 =>
          rw [List.cons_append] at hsplit
          injection hsplit with hd hcs1
          subst hd
          have := star_none p k cs (c :: taken) hs pre1 rest1 hcs1
            (fun x hx => hall1 x (List.mem_cons_of_mem _ hx))
          rw [List.reverse_cons, List.append_assoc]
          exact this
    · rename_i hpc
      refine ⟨[], c :: cs, rfl, fun _ hc => absurd hc (List.not_mem_nil _), h, ?_⟩
      intro pre1 rest1 hsplit hall1 hlen
      cases pre1 with
      | nil => exact absurd hlen (Nat.lt_irrefl _)
      | cons d pre1 =>
        rw [List.cons_append] at hsplit
        injection hsplit with hd _
        subst hd
        exact absurd (hall1 c (List.mem_cons_self _ _)) hpc

theorem regex_match_eq (string : String) :
    regex_match string = star dot (fun _ r1 => labelAndRest r1) [] string.data := rfl

theorem labelAndRest_some (r1 : List Char) (label : String)
    (h : labelAndRest r1 = some label) :
    ∃ q, r1 = '_' :: (label.data ++ '_' :: q) ∧ (∀ c ∈ label.data, alnum c = true) ∧
      (∀ c ∈ q, dot c = true) := by
  unfold labelAndRest at h
  obtain ⟨r2, hr1, h⟩ := lit_some _ _ _ _ h
  obtain ⟨g, r3, hr2, hg, h⟩ := star_some _ _ _ _ _ h
  obtain ⟨r4, hr3, h⟩ := lit_some _ _ _ _ h
  obtain ⟨q, r5, hr4, hq, h⟩ := star_some _ _ _ _ _ h
  split at h
  · injection h with h
    subst h
    refine ⟨q, ?_, ?_, hq⟩
    · rw [hr1, hr2, hr3, hr4]
      simp
    · simpa using hg
  · cases h

theorem labelAndRest_complete (label q : List Char) (hl : ∀ c ∈ label, alnum c = true)
    (hq : ∀ c ∈ q, dot c = true) : labelAndRest ('_' :: (label ++ '_' :: q)) ≠ none := by
  intro h
  unfold labelAndRest at h
  simp only [lit, if_true] at h
  have h1 := star_none _ _ _ _ h label ('_' :: q) rfl hl
  simp only [lit, if_true] at h1
  have h2 := star_none _ _ _ _ h1 q [] (List.append_nil q).symm hq
  cases h2

/-- Two alphanumeric runs that end at an underscore of the same string are equal. -/
theorem alnum_run_unique : ∀ (a b x y : List Char), (∀ c ∈ a, alnum c = true) →
    (∀ c ∈ b, alnum c = true) → a ++ '_' :: x = b ++ '_' :: y → a = b := by
  intro a
  induction a with
  | nil =>
    intro b x y _ hb h
    cases b with
    | nil => rfl
    | cons d b =>
      rw [List.nil_append, List.cons_append] at h
      injection h with hd _
      have := hb d (List.mem_cons_self _ _)
      rw [← hd] at this
      exact absurd this (by decide)
  | cons c a ih =>
    intro b x y ha hb h
    cases b with
    | nil =>
      rw [List.nil_append, List.cons_append] at h
      injection h with hc _
      have := ha c (List.mem_cons_self _ _)
      rw [hc] at this
      exact absurd this (by decide)
    | cons d b =>
      rw [List.cons_append, List.cons_append] at h
      injection h with hcd hrest
      rw [hcd, ih b x y (fun z hz => ha z (List.mem_cons_of_mem _ hz))
        (fun z hz => hb z (List.mem_cons_of_mem _ hz)) hrest]

/-- A match gives the decomposition with the longest `p`. -/
theorem regex_match_longest (string label : String) (h : regex_match string = some label) :
    ∃ p q, Splits string.data p label.data q ∧
      ∀ p1 l1 q1, Splits string.data p1 l1 q1 → p1.length ≤ p.length := by
  rw [regex_match_eq] at h
  obtain ⟨p, r1, hs, hp, hk, hlong⟩ := star_some_longest _ _ _ _ _ h
  obtain ⟨q, hr1, hl, hq⟩ := labelAndRest_some r1 label hk
  refine ⟨p, q, ⟨by rw [hs, hr1], hp, hl, hq⟩, ?_⟩
  intro p1 l1 q1 hsp
  obtain ⟨hs1, hp1, hl1, hq1⟩ := hsp
  by_contra hlen
  have := hlong p1 _ hs1 hp1 (by omega)
  exact labelAndRest_complete l1 q1 hl1 hq1 this

/-- A stem that has a decomposition matches. -/
theorem regex_match_complete (string : String) (p l q : List Char)
    (hsp : Splits string.data p l q) : regex_match string ≠ none := by
  intro h
  rw [regex_match_eq] at h
  obtain ⟨hs, hp, hl, hq⟩ := hsp
  have := star_none _ _ _ _ h p _ hs hp
  exact labelAndRest_complete l q hl hq this

/-- C18, counterexample. The stem `a_b_c`, line feed, `d` is
`p + "_" + L + "_" + s` with `L = b`, and the pattern does not accept it: `.`
does not match a line terminator. -/
theorem line_terminator_rejected :
    regex_match "a_b_c\nd" = none ∧
      "a_b_c\nd".data = "a".data ++ '_' :: ("b".data ++ '_' :: "c\nd".data) ∧
      (∀ c ∈ "b".data, alnum c = true) :=
  ⟨by decide, by decide, by decide⟩

/-- C18, amended. A stem is accepted by the pattern exactly when it is
`p + "_" + L + "_" + s` with `L` made of characters of `[0-9A-Za-z]` (possibly
none) and no line terminator in `p` and `s`; the label extracted is the `L` of
the decomposition with the longest `p`. -/
theorem label_extraction (stem : String) :
    ((regex_match stem).isSome = true ↔ ∃ p label q, Splits stem.data p label q) ∧
      ∀ label : String, regex_match stem = some label ↔
        ∃ p q, Splits stem.data p label.data q ∧
          ∀ p1 l1 q1, Splits stem.data p1 l1 q1 → p1.length ≤ p.length := by
  have hfwd : ∀ label : String, regex_match stem = some label →
      ∃ p q, Splits stem.data p label.data q ∧
        ∀ p1 l1 q1, Splits stem.data p1 l1 q1 → p1.length ≤ p.length :=
    fun label h => regex_match_longest stem label h
  constructor
  · constructor
    · intro h
      cases hm : regex_match stem with
      | none =>
        rw [hm] at h
        cases h
      | some label =>
        obtain ⟨p, q, hsp, _⟩ := hfwd label hm
        exact ⟨p, label.data, q, hsp⟩
    · rintro ⟨p, l, q, hsp⟩
      cases hm : regex_match stem with
      | none => exact absurd hm (regex_match_complete stem p l q hsp)
      | some label => rfl
  · intro label
    constructor
    · exact hfwd label
    · rintro ⟨p, q, hsp, hlong⟩
      cases hm : regex_match stem with
      | none => exact absurd hm (regex_match_complete stem p _ q hsp)
      | some label1 =>
        obtain ⟨p1, q1, hsp1, hlong1⟩ := hfwd label1 hm
        have hlen : p.length = p1.length :=
          Nat.le_antisymm (hlong1 p _ q hsp) (hlong p1 _ q1 hsp1)
        have heq : p ++ '_' :: (label.data ++ '_' :: q) =
            p1 ++ '_' :: (label1.data ++ '_' :: q1) := by
          rw [← hsp.1, ← hsp1.1]
        have h2 := (List.append_inj heq hlen).2
        injection h2 with _ h3
        have h4 := alnum_run_unique _ _ _ _ hsp.2.2.1 hsp1.2.2.1 h3
        rw [String.ext h4]

/-- C18 (amended) at the stems of the claim: `1_AB_CD_7` yields `CD`, `a__b`
the empty label, and `AB` and `a_b-c` are rejected. -/
theorem label_extraction_witness :
    regex_match "1_AB_CD_7" = some "CD" ∧ regex_match "a__b" = some "" ∧
      regex_match "AB" = none ∧ regex_match "a_b-c" = none ∧
      ∃ p q, Splits "1_AB_CD_7".data p "CD".data q ∧
        ∀ p1 l1 q1, Splits "1_AB_CD_7".data p1 l1 q1 → p1.length ≤ p.length :=
  ⟨by decide, by decide, by decide, by decide,
    ((label_extraction "1_AB_CD_7").2 "CD").1 (by decide)⟩

/-! ## C19: the stem is uniquely decodable -/

theorem digitChar_ne_underscore (k : Nat) (hk : k < 10) : Nat.digitChar k ≠ '_' := by
  revert k
  decide

theorem digitChar_value (k : Nat) (hk : k < 10) : (Nat.digitChar k).toNat - 48 = k := by
  revert k
  decide

theorem toDigitsCore_no_underscore : ∀ (fuel n : Nat) (ds : List Char),
    (∀ c ∈ ds, c ≠ '_') → ∀ c ∈ Nat.toDigitsCore 10 fuel n ds, c ≠ '_' := by
  intro fuel
  induction fuel with
  | zero =>
    intro n ds hds c hc
    exact hds c hc
  | succ fuel ih =>
    intro n ds hds c hc
    simp only [Nat.toDigitsCore] at hc
    have hcons : ∀ x ∈ Nat.digitChar (n % 10) :: ds, x ≠ '_' := by
      intro x hx
      rcases List.mem_cons.1 hx with hx | hx
      · rw [hx]
        exact digitChar_ne_underscore _ (Nat.mod_lt _ (by decide))
      · exact hds x hx
    split at hc
    · exact hcons c hc
    · exact ih _ _ hcons c hc

theorem toDigitsCore_append : ∀ (fuel n : Nat) (ds : List Char),
    Nat.toDigitsCore 10 fuel n ds = Nat.toDigitsCore 10 fuel n [] ++ ds := by
  intro fuel
  induction fuel with
  | zero =>
    intro n ds
    rfl
  | succ fuel ih =>
    intro n ds
    simp only [Nat.toDigitsCore]
    split
    · rfl
    · rw [ih _ (Nat.digitChar (n % 10) :: ds), ih _ [Nat.digitChar (n % 10)],
        List.append_assoc]
      rfl

theorem digitsValue_toDigitsCore : ∀ (fuel n : Nat), n < fuel →
    digitsValue (Nat.toDigitsCore 10 fuel n []) = n := by
  intro fuel
  induction fuel with
  | zero =>
    intro n hn
    exact absurd hn (Nat.not_lt_zero n)
  | succ fuel ih =>
    intro n hn
    have hd := digitChar_value (n % 10) (Nat.mod_lt _ (by decide))
    simp only [Nat.toDigitsCore]
    split
    · rename_i h0
      show 10 * 0 + ((Nat.digitChar (n % 10)).toNat - 48) = n
      rw [hd]
      omega
    · rename_i h0
      rw [toDigitsCore_append]
      unfold digitsValue
      rw [List.foldl_append]
      show 10 * digitsValue (Nat.toDigitsCore 10 fuel (n / 10) []) +
        ((Nat.digitChar (n % 10)).toNat - 48) = n
      rw [ih (n / 10) (by omega), hd]
      omega

/-- The decimal numeral of an index determines the index. -/
theorem toString_nat_injective (j k : Nat) (h : (toString j).data = (toString k).data) :
    j = k := by
  have hj := digitsValue_toDigitsCore (j + 1) j (Nat.lt_succ_self j)
  have hk := digitsValue_toDigitsCore (k + 1) k (Nat.lt_succ_self k)
  have h1 : Nat.toDigitsCore 10 (j + 1) j [] = Nat.toDigitsCore 10 (k + 1) k [] := h
  rw [h1] at hj
  exact hj.symm.trans hk

theorem toString_nat_no_underscore (j : Nat) : '_' ∉ (toString j).data := by
  intro h
  exact toDigitsCore_no_underscore (j + 1) j [] (fun _ hc => absurd hc (List.not_mem_nil _))
    '_' h rfl

theorem intercalate_underscore (a : List Char) (ls : List (List Char)) :
    List.intercalate ['_'] (a :: ls) = a ++ (ls.map fun l => '_' :: l).flatten := by
  induction ls generalizing a with
  | nil => simp [List.intercalate]
  | cons b ls ih =>
    have := ih b
    simp [List.intercalate, List.intersperse] at this ⊢
    exact this

/-- The characters of the stem: the numeral, then an underscore and a label for
each entry. -/
theorem accumulate_data (strings : List (String × Box)) (j : Nat) :
    (accumulate strings j).data =
      List.intercalate ['_'] ((toString j).data :: strings.map fun string => string.1.data) := by
  rw [intercalate_underscore]
  unfold accumulate
  rw [foldl_label_join]
  simp [String.join_eq, String.data_append, List.map_map, Function.comp_def]

/-- C19. Splitting the stem of a finalized sample at every underscore gives the
decimal numeral of its index followed by its sorted labels, none of which
contains an underscore; two samples with different indices have different
stems and, written to the same directory, different paths. -/
theorem stem_decodable (cfg : Config) (filenames : List File) (j : Nat) (engine : Engine)
    (memory : Nat → Nat → Pixel)
    (out : Output) (h : makeSample cfg filenames j engine memory = .ok out) :
    out.stem.data.splitOn '_' = (toString j).data :: out.strings.map (fun string => string.1.data) ∧
      (∀ e ∈ out.strings, '_' ∉ e.1.data) ∧
      ∀ (cfg1 : Config) (filenames1 : List File) (j1 : Nat) (engine1 : Engine)
          (memory1 : Nat → Nat → Pixel) (out1 : Output),
        makeSample cfg1 filenames1 j1 engine1 memory1 = .ok out1 → j ≠ j1 →
        out.stem ≠ out1.stem ∧
          (cfg.output_directory = cfg1.output_directory → out.path ≠ out1.path) := by
  have hsplit : ∀ (cfg : Config) (filenames : List File) (j : Nat) (engine : Engine)
      (memory : Nat → Nat → Pixel)
      (out : Output), makeSample cfg filenames j engine memory = .ok out →
      (∀ e ∈ out.strings, '_' ∉ e.1.data) ∧
        out.stem.data.splitOn '_' =
          (toString j).data :: out.strings.map (fun string => string.1.data) := by
    intro cfg filenames j engine memory out h
    obtain ⟨_, _, _, hsort, hstem, _⟩ := makeSample_ok h
    have hlab : ∀ e ∈ out.strings, '_' ∉ e.1.data := by
      intro e he hmem
      rw [hsort] at he
      obtain ⟨p, _, hpe, _, _, _, _, _, _, filename, _, hm, _⟩ :=
        Inv_strings_placed (makeSample_inv h) e ((sort_perm _).mem_iff.1 he)
      obtain ⟨_, _, _, _, hl, _⟩ := regex_match_some _ _ hm
      rw [hpe] at hmem
      exact absurd (hl '_' hmem) (by decide)
    refine ⟨hlab, ?_⟩
    rw [hstem, accumulate_data]
    apply List.splitOn_intercalate
    · intro l hl
      rcases List.mem_cons.1 hl with hl | hl
      · rw [hl]
        exact toString_nat_no_underscore j
      · obtain ⟨e, he, hel⟩ := List.mem_map.1 hl
        rw [← hel]
        exact hlab e he
    · exact List.cons_ne_nil _ _
  obtain ⟨hlab, hsp⟩ := hsplit cfg filenames j engine memory out h
  refine ⟨hsp, hlab, ?_⟩
  intro cfg1 filenames1 j1 engine1 memory1 out1 h1 hne
  obtain ⟨_, hsp1⟩ := hsplit cfg1 filenames1 j1 engine1 memory1 out1 h1
  have hstem : out.stem ≠ out1.stem := by
    intro heq
    rw [heq, hsp1] at hsp
    injection hsp with hd _
    exact hne (toString_nat_injective j j1 hd.symm)
  refine ⟨hstem, ?_⟩
  intro hdir heq
  rw [(makeSample_ok h).2.2.2.2.2, (makeSample_ok h1).2.2.2.2.2, hdir] at heq
  have h2 := congrArg String.data heq
  simp only [String.data_append] at h2
  have h3 := List.append_cancel_right h2
  have h4 := List.append_cancel_left h3
  exact hstem (String.ext h4)

/-- C19 at the demo run and the crowded run: the stem `7_C_AB` splits into `7`,
`C`, `AB`, and it differs from the stem of the sample of index 8. -/
theorem stem_decodable_witness :
    makeSample demoConfig demoCorpus 7 demoEngine demoMemory = .ok demoOutput ∧
      demoOutput.stem = "7_C_AB" ∧
      demoOutput.stem.data.splitOn '_' = ["7".data, "C".data, "AB".data] ∧
      ∀ (cfg1 : Config) (filenames1 : List File) (j1 : Nat) (engine1 : Engine)
          (memory1 : Nat → Nat → Pixel) (out1 : Output),
        makeSample cfg1 filenames1 j1 engine1 memory1 = .ok out1 → 7 ≠ j1 →
        demoOutput.stem ≠ out1.stem ∧
          (demoConfig.output_directory = cfg1.output_directory →
            demoOutput.path ≠ out1.path) :=
  ⟨rfl, by decide, by decide,
    (stem_decodable demoConfig demoCorpus 7 demoEngine demoMemory demoOutput rfl).2.2⟩

/-! ## C20: every draw has a range -/

/-- C20. With a corpus that is not empty and `sequence_lengths[0] ≥ 1`: the
target count is drawn from the range `[1, sequence_lengths[0]]`, which is not
empty; the index of a file is drawn from `[0, size - 1]`, which is not empty,
and is an index of the corpus; an offset is drawn only for an image that
passed the checks, for which `canvas width - image width ≥ 0` and
`canvas height - image height ≥ 0`, and the offset search then ends without a
fault; no round ends with a fault; with at least one thread the division
`num_data / num_threads` is defined; so `makeSample` gives a sample unless the
canvas has a negative dimension. -/
theorem draws_well_formed (cfg : Config) (filenames : List File) (hne : filenames ≠ [])
    (hseq : 1 ≤ cfg.sequence_lengths.1) :
    (∀ engine : Engine, ∃ v e1,
        uniform_int_distribution 1 cfg.sequence_lengths.1 engine = .ok (v, e1) ∧
        1 ≤ v ∧ v ≤ cfg.sequence_lengths.1) ∧
      (∀ engine : Engine, ∃ index e1 filename,
        uniform_int_distribution 0 ((filenames.length : Int) - 1) engine = .ok (index, e1) ∧
        0 ≤ index ∧ index.toNat < filenames.length ∧
        filenames[index.toNat]? = some filename) ∧
      (∀ (img : Image) (filename : File) (label : String) (image : Image),
        candidate cfg img filename = some (label, image) →
        (0 : Int) ≤ (img.width : Int) - image.width ∧
          (0 : Int) ≤ (img.height : Int) - image.height ∧
          ∀ (m : Nat) (s : Sample), s.multi_image = img →
            ∃ b s1, placeOffsets label image m s = .ok (b, s1)) ∧
      (∀ (l : Nat) (s : Sample), ∃ b s1, acquireLabel cfg filenames l s = .ok (b, s1)) ∧
      (∀ num_threads : Nat, 1 ≤ num_threads →
        ∃ shards, schedule cfg.num_data num_threads = .ok shards) ∧
      (∀ (j : Nat) (engine : Engine) (memory : Nat → Nat → Pixel),
        (∃ out, makeSample cfg filenames j engine memory = .ok out) ∨
          (makeSample cfg filenames j engine memory = .error .undefined ∧
            (cfg.image_width < 0 ∨ cfg.image_height < 0))) := by
  refine ⟨?_, ?_, ?_, ?_, ?_, ?_⟩
  · intro engine
    obtain ⟨v, hv⟩ := uniform_defined engine hseq
    have hr := uniform_ok hv
    exact ⟨v, _, hv, hr.1, hr.2.1⟩
  · intro engine
    have hlen : 0 < filenames.length := List.length_pos.2 hne
    obtain ⟨index, hindex⟩ := uniform_defined (a := 0) (b := (filenames.length : Int) - 1)
      engine (by omega)
    have hr := uniform_ok hindex
    have hlt : index.toNat < filenames.length := by omega
    exact ⟨index, _, filenames[index.toNat], hindex, hr.1, hlt, List.getElem?_eq_getElem hlt⟩
  · intro img filename label image hcand
    have hfit := (candidate_some _ _ _ _ _).1 hcand
    refine ⟨by omega, by omega, ?_⟩
    intro m s hs
    exact placeOffsets_defined label image m s (by rw [hs]; exact hfit.2.2.2.1)
      (by rw [hs]; exact hfit.2.2.2.2)
  · intro l s
    exact acquireLabel_defined cfg filenames hne l s
  · intro num_threads hN
    unfold schedule num_data
    rw [if_neg (by omega)]
    exact ⟨_, rfl⟩
  · intro j engine memory
    by_cases hdim : cfg.image_width < 0 ∨ cfg.image_height < 0
    · right
      refine ⟨?_, hdim⟩
      unfold makeSample
      rw [if_pos hdim]
    · left
      exact makeSample_defined cfg filenames j engine memory hne hseq (by omega) (by omega)

/-- C20 at `demoConfig` and `demoCorpus`: the demo run gives a sample, and the
index range, target range and worker division are defined. -/
theorem draws_well_formed_witness :
    demoCorpus ≠ [] ∧ 1 ≤ demoConfig.sequence_lengths.1 ∧
      makeSample demoConfig demoCorpus 7 demoEngine demoMemory = .ok demoOutput ∧
      schedule demoConfig.num_data 3 = .ok [[0, 1], [2, 3], [4, 5]] ∧
      ∀ (l : Nat) (s : Sample), ∃ b s1, acquireLabel demoConfig demoCorpus l s = .ok (b, s1) :=
  ⟨List.cons_ne_nil _ _, by decide, rfl, rfl,
    (draws_well_formed demoConfig demoCorpus (List.cons_ne_nil _ _) (by decide)).2.2.2.1⟩

end MakeDataset
